import Mathlib

/-!
Shallow embedding of `dlgo/gotypes.py` and `dlgo/goboard_slow.py`.

Python objects (`GoString` instances) are aliased: several board points map to
the *same* object, and in-place mutation of that object is visible through all
of them.  We model this with an explicit object store: the board keeps
`grid : Point → Option Nat` (point to object id, `None` for empty) and
`heap : Nat → GoString` (object id to current value), together with a fresh-id
counter `next`.  Python's `is` comparison is id equality; Python's `==`
(``GoString.__eq__``) is structural equality of color, stones and liberties.

Python exceptions (`assert` failures, `set.remove` KeyError) are modeled with
an error value; a raising operation on the board also returns the board as
mutated so far, since in Python the mutations performed before the exception
stay visible to the caller.
-/

namespace DlGo

/-- A board point, the `Point` namedtuple of `gotypes.py`: a pair of
(1-based) integer coordinates. -/
structure Point where
  row : Int
  col : Int
deriving DecidableEq

/-- The four orthogonal neighbors, in the order `Point.neighbors` lists them:
up, down, left, right.  No bounds checking at this level. -/
def Point.neighbors (p : Point) : List Point :=
  [⟨p.row - 1, p.col⟩, ⟨p.row + 1, p.col⟩, ⟨p.row, p.col - 1⟩, ⟨p.row, p.col + 1⟩]

/-- The `Player` enum of `gotypes.py`. -/
inductive Player where
  | black
  | white
deriving DecidableEq

/-- The opposite color, `Player.other`. -/
def Player.other : Player → Player
  | .black => .white
  | .white => .black

/-- A linear ordering on points, used to fix an iteration order when the
source iterates over a Python `set` of points (the order it uses is
unspecified; the source's own comment notes the result is order-independent). -/
def pointLe (a b : Point) : Prop :=
  a.row < b.row ∨ (a.row = b.row ∧ a.col ≤ b.col)

instance : DecidableRel pointLe := fun a b => by
  unfold pointLe; exact inferInstance

instance : IsTrans Point pointLe where
  trans a b c hab hbc := by
    rcases hab with h | ⟨h1, h2⟩ <;> rcases hbc with h' | ⟨h1', h2'⟩ <;>
      unfold pointLe <;> omega

instance : IsAntisymm Point pointLe where
  antisymm a b hab hba := by
    rcases a with ⟨ar, ac⟩; rcases b with ⟨br, bc⟩
    rcases hab with h | ⟨h1, h2⟩ <;> rcases hba with h' | ⟨h1', h2'⟩ <;>
      simp_all <;> omega

instance : IsTotal Point pointLe where
  total a b := by unfold pointLe; omega

/-- Iterate a finite set of points in ascending `pointLe` order.  Insertion
sort is used because it is structurally recursive, so concrete boards can be
evaluated inside proofs; the value is independent of the underlying list
order. -/
def sortPoints (s : Finset Point) : List Point :=
  Quot.liftOn s.1 (fun l => l.insertionSort pointLe) fun l1 l2 h =>
    List.eq_of_perm_of_sorted
      ((List.perm_insertionSort pointLe l1).trans
        (h.trans (List.perm_insertionSort pointLe l2).symm))
      (List.sorted_insertionSort pointLe l1) (List.sorted_insertionSort pointLe l2)

instance {ε α : Type} [DecidableEq ε] [DecidableEq α] : DecidableEq (Except ε α) :=
  fun x y =>
    match x, y with
    | .ok a, .ok b =>
      if h : a = b then .isTrue (by rw [h])
      else .isFalse (by intro hc; cases hc; exact h rfl)
    | .error e, .error f =>
      if h : e = f then .isTrue (by rw [h])
      else .isFalse (by intro hc; cases hc; exact h rfl)
    | .ok _, .error _ => .isFalse (by intro hc; cases hc)
    | .error _, .ok _ => .isFalse (by intro hc; cases hc)

/-- The `GoString` class: a chain of same-color stones with its liberties.
`stones` and `liberties` are Python sets of points. -/
structure GoString where
  color : Player
  stones : Finset Point
  liberties : Finset Point
deriving DecidableEq

/-- The exceptions the source can raise: the three `assert` failures
(off-grid point, occupied point, merging different colors, invalid move
construction) and the `KeyError` raised by `set.remove` in
`GoString.remove_liberty` when the point is not a liberty. -/
inductive Err where
  | offGrid
  | occupied
  | colorMismatch
  | invalidMove
  | keyError
deriving DecidableEq

/-- `GoString.remove_liberty`: `self.liberties.remove(point)`.  Python's
`set.remove` raises `KeyError` when the element is absent. -/
def GoString.removeLiberty (g : GoString) (p : Point) : Except Err GoString :=
  if p ∈ g.liberties then .ok { g with liberties := g.liberties.erase p }
  else .error .keyError

/-- `GoString.add_liberty`: `self.liberties.add(point)` (idempotent insert). -/
def GoString.addLiberty (g : GoString) (p : Point) : GoString :=
  { g with liberties := insert p g.liberties }

/-- The value computed by `GoString.merged_with` once its color assert has
passed: stones are the union, liberties are the union minus the combined
stones. -/
def GoString.mergedValue (a b : GoString) : GoString :=
  { color := a.color
    stones := a.stones ∪ b.stones
    liberties := (a.liberties ∪ b.liberties) \ (a.stones ∪ b.stones) }

/-- `GoString.merged_with`, including its
`assert go_string.color == self.color`. -/
def GoString.mergedWith (a b : GoString) : Except Err GoString :=
  if b.color = a.color then .ok (a.mergedValue b) else .error .colorMismatch

/-- The `num_liberties` property: `len(self.liberties)`. -/
def GoString.numLiberties (g : GoString) : Nat := g.liberties.card

/-- The `Move` class: a point (or `None`), plus the `is_pass` / `is_resign`
flags as stored on the instance. -/
structure Move where
  point : Option Point
  is_pass : Bool
  is_resign : Bool
deriving DecidableEq

/-- The derived `is_play` flag: `self.point is not None`. -/
def Move.isPlay (m : Move) : Bool := m.point.isSome

/-- `Move.__init__`: asserts `(point is not None) ^ is_pass ^ is_resign`
(a chain of boolean XORs) and stores the fields. -/
def mkMove (point : Option Point) (is_pass is_resign : Bool) : Except Err Move :=
  if Bool.xor (Bool.xor point.isSome is_pass) is_resign then
    .ok ⟨point, is_pass, is_resign⟩
  else .error .invalidMove

/-- The `Board` class.  `grid` is the `_grid` dict sending each occupied point
to the id of its `GoString` object (`none` both for keys that are absent and
for keys explicitly set to `None`, which `dict.get` does not distinguish);
`heap` is the object store and `next` the next unused object id. -/
structure Board where
  numRows : Int
  numCols : Int
  grid : Point → Option Nat
  heap : Nat → GoString
  next : Nat

/-- `Board.__init__`: an empty grid. -/
def Board.init (numRows numCols : Int) : Board :=
  { numRows := numRows
    numCols := numCols
    grid := fun _ => none
    heap := fun _ => ⟨.black, ∅, ∅⟩
    next := 0 }

/-- `Board.is_on_grid`: `1 <= point.row <= num_rows and 1 <= point.col <= num_cols`. -/
def Board.isOnGrid (b : Board) (p : Point) : Bool :=
  decide (1 ≤ p.row ∧ p.row ≤ b.numRows ∧ 1 ≤ p.col ∧ p.col ≤ b.numCols)

/-- `Board.get_go_string`: the string occupying the point, else `None`. -/
def Board.getGoString (b : Board) (p : Point) : Option GoString :=
  (b.grid p).map b.heap

/-- Overwrite the stored value of object `i` (an in-place mutation of that
`GoString` object, visible through every grid point holding id `i`). -/
def Board.setHeap (b : Board) (i : Nat) (g : GoString) : Board :=
  { b with heap := fun j => if j = i then g else b.heap j }

/-- Allocate a fresh `GoString` object, returning its id. -/
def Board.alloc (b : Board) (g : GoString) : Nat × Board :=
  (b.next, { b with heap := fun j => if j = b.next then g else b.heap j, next := b.next + 1 })

/-- The registration loop `for new_string_point in new_string.stones:
self._grid[new_string_point] = new_string`: every stone of the string is
mapped to the (single) new object. -/
def Board.registerString (b : Board) (i : Nat) (stones : Finset Point) : Board :=
  { b with grid := fun q => if q ∈ stones then some i else b.grid q }

/-- The body of the inner loop of `Board._remove_string`: look up one
neighbor `n` of the stone `p` being removed; if it holds a string that is a
*different* object than the one being removed (`is not string`, id
comparison), give `p` back to it as a liberty. -/
def addLibertyStep (s : Nat) (p : Point) (acc : Board) (n : Point) : Board :=
  match acc.grid n with
  | none => acc
  | some j => if j ≠ s then acc.setHeap j ((acc.heap j).addLiberty p) else acc

/-- One iteration of the outer loop of `Board._remove_string`: for one stone
`p` of the string being removed, run the inner neighbor loop, then set
`self._grid[p] = None`. -/
def Board.removeStoneStep (b : Board) (s : Nat) (p : Point) : Board :=
  let b1 := p.neighbors.foldl (addLibertyStep s p) b
  { b1 with grid := fun q => if q = p then none else b1.grid q }

/-- `Board._remove_string`: iterate over the stones of the captured string
(a Python set; we iterate in `pointLe` order, the result being
order-independent as the source notes). -/
def Board.removeString (b : Board) (s : Nat) : Board :=
  (sortPoints (b.heap s).stones).foldl (fun acc p => acc.removeStoneStep s p) b

/-- The loop `for other_color_string in adjacent_opposite_color:
other_color_string.remove_liberty(point)`.  A `KeyError` aborts the loop;
the mutations already performed stay in place, so the error carries the
board as mutated so far. -/
def removeLibertiesLoop (point : Point) : List Nat → Board → Except (Err × Board) Board
  | [], b => .ok b
  | i :: rest, b =>
    match (b.heap i).removeLiberty point with
    | .ok g => removeLibertiesLoop point rest (b.setHeap i g)
    | .error e => .error (e, b)

/-- The loop `for other_color_string in adjacent_opposite_color:
if other_color_string.num_liberties == 0: self._remove_string(...)`. -/
def captureLoop (opp : List Nat) (b : Board) : Board :=
  opp.foldl (fun acc i => if (acc.heap i).numLiberties = 0 then acc.removeString i else acc) b

/-- The mutable local state of `Board.place_stone`'s neighbor loop:
the board plus the `adjacent_same_color`, `adjacent_opposite_color`
and `liberties` lists (the first two hold object ids). -/
structure PSState where
  board : Board
  same : List Nat
  opp : List Nat
  libs : List Point

/-- The body of `for neighbor in point.neighbors()` in `Board.place_stone`.
In the source all of lines 103-118 are indented *inside* this loop, so the
new-string construction, the merging, the grid registration, the
opposite-color liberty removal and the capture check are all re-executed for
every on-grid neighbor; an off-grid neighbor `continue`s past all of it.

The classification step: an empty neighbor is appended to `liberties`; a
same-color string is appended to `adjacent_same_color` unless an element of
that list compares `==` (structurally) equal to it; for an opposite-color
string the source tests `neighbor_string.color not in adjacent_opposite_color`,
comparing a `Player` against `GoString`s, which never matches, so the string
is appended unconditionally.

The source allocates a `GoString` object for the seed string and one more per
`merged_with` call; only the final merged object is ever stored or compared,
so we compute the merged value purely and allocate a single fresh object for
it.  The color assert inside `merged_with` cannot fire here: every merge
partner was classified with `color == player`, which is the accumulator's
color. -/
def psBody (player : Player) (point : Point) (st : PSState) (n : Point) :
    Except (Err × Board) PSState :=
  if st.board.isOnGrid n = false then .ok st
  else
    let st1 : PSState :=
      match st.board.grid n with
      | none => { st with libs := st.libs ++ [n] }
      | some i =>
        if (st.board.heap i).color = player then
          if st.same.any (fun j => st.board.heap j = st.board.heap i) then st
          else { st with same := st.same ++ [i] }
        else { st with opp := st.opp ++ [i] }
    let value : GoString :=
      st1.same.foldl (fun acc j => acc.mergedValue (st1.board.heap j))
        ⟨player, {point}, st1.libs.toFinset⟩
    let (newId, b1) := st1.board.alloc value
    let b2 := b1.registerString newId value.stones
    match removeLibertiesLoop point st1.opp b2 with
    | .error (e, b3) => .error (e, b3)
    | .ok b3 => .ok { st1 with board := captureLoop st1.opp b3 }

/-- `Board.place_stone`.  The two asserts fail before any mutation; afterwards
the neighbor loop runs with the mis-indented body.  On an exception the board
mutated so far is returned alongside the error, matching Python, where the
caller's board object keeps the mutations performed before the raise. -/
def Board.placeStone (b : Board) (player : Player) (point : Point) : Option Err × Board :=
  if b.isOnGrid point = false then (some .offGrid, b)
  else if (b.grid point).isSome then (some .occupied, b)
  else
    match point.neighbors.foldlM (psBody player point) ⟨b, [], [], []⟩ with
    | .ok st => (none, st.board)
    | .error (e, b') => (some e, b')

/-- The `GameState` class: board, next player, optional previous state,
optional last move. -/
inductive GameState where
  | mk (board : Board) (nextPlayer : Player) (previousState : Option GameState)
      (lastMove : Option Move)

def GameState.board : GameState → Board
  | .mk b _ _ _ => b

def GameState.nextPlayer : GameState → Player
  | .mk _ np _ _ => np

def GameState.previousState : GameState → Option GameState
  | .mk _ _ ps _ => ps

def GameState.lastMove : GameState → Option Move
  | .mk _ _ _ lm => lm

/-- `copy.deepcopy` of a board.  The copy is a distinct object graph with the
same contents; on our value-level boards that is the value itself. -/
def deepcopy (b : Board) : Board := b

/-- `GameState.apply_move`: for a play (`move.point is not None`), place the
stone on a deep copy of the board; a raising `place_stone` propagates (the
mutated copy is discarded, as the Python clone is a dropped local).  For a
pass or resign the same board value is reused.  The new state points back at
the current one. -/
def GameState.applyMove (s : GameState) (m : Move) : Except Err GameState :=
  match m.point with
  | some p =>
    match (deepcopy s.board).placeStone s.nextPlayer p with
    | (none, b') => .ok (.mk b' s.nextPlayer.other (some s) (some m))
    | (some e, _) => .error e
  | none => .ok (.mk s.board s.nextPlayer.other (some s) (some m))

/-- `GameState.new_game`: an empty square board, black to move, no history. -/
def GameState.newGame (boardSize : Int) : GameState :=
  .mk (Board.init boardSize boardSize) .black none none

/-- `GameState.is_over`.  When `last_move` is set but `previous_state` is
`None`, the source dereferences `self.previous_state.last_move` on `None` and
raises `AttributeError`; we model that outcome as `none`. -/
def GameState.isOver (s : GameState) : Option Bool :=
  match s.lastMove with
  | none => some false
  | some m =>
    if m.is_resign then some true
    else
      match s.previousState with
      | none => none
      | some prev =>
        match prev.lastMove with
        | none => some false
        | some pm => some (m.is_pass && pm.is_pass)

/-- Boards reachable from an empty board by successful `place_stone` calls. -/
inductive ReachableBoard : Board → Prop
  | init (numRows numCols : Int) : ReachableBoard (Board.init numRows numCols)
  | step {b b' : Board} {player : Player} {p : Point} :
      ReachableBoard b → b.placeStone player p = (none, b') → ReachableBoard b'

/-- Game states reachable through the public API: `new_game` followed by any
sequence of successful `apply_move` calls. -/
inductive ReachableState : GameState → Prop
  | newGame (boardSize : Int) : ReachableState (GameState.newGame boardSize)
  | step {s s' : GameState} {m : Move} :
      ReachableState s → s.applyMove m = .ok s' → ReachableState s'

/-- The set of empty on-grid points orthogonally adjacent to at least one
stone of the string stored as object `i`: the quantity the liberty-count
invariant compares `num_liberties` against. -/
def emptyNeighborPoints (b : Board) (i : Nat) : Finset Point :=
  ((b.heap i).stones.biUnion (fun p => p.neighbors.toFinset)).filter
    (fun q => b.isOnGrid q = true ∧ b.grid q = none)

/-- The termination rule as the claim states it: `False` with no last move;
`True` on a resign; otherwise `True` iff both the last move and the
immediately preceding move are passes, and `False` when the preceding move
(or the previous state itself) is absent.  Stated from the claim's wording,
to be compared with `GameState.isOver` from the source. -/
def specIsOver (s : GameState) : Bool :=
  match s.lastMove with
  | none => false
  | some m =>
    if m.is_resign then true
    else
      match s.previousState with
      | none => false
      | some prev =>
        match prev.lastMove with
        | none => false
        | some pm => m.is_pass && pm.is_pass

/- Boards used for the concrete capture trace of C1: on a 2×2 board, black
plays (2,2), white plays (2,1); white's play at (1,2) then removes black's
last liberty. -/

def c1bA : Board := ((Board.init 2 2).placeStone .black ⟨2, 2⟩).2

def c1bB : Board := (c1bA.placeStone .white ⟨2, 1⟩).2

/- Board used for the C4 trace: black at (3,3) on an empty 5×5 board. -/

def c4bA : Board := ((Board.init 5 5).placeStone .black ⟨3, 3⟩).2

/- States used for the C8/C9/C10 witnesses. -/

def c8next : GameState :=
  ((GameState.newGame 5).applyMove ⟨some ⟨3, 3⟩, false, false⟩).toOption.getD
    (GameState.newGame 5)

def passMove : Move := ⟨none, true, false⟩

def c9s1 : GameState :=
  ((GameState.newGame 3).applyMove passMove).toOption.getD (GameState.newGame 3)

def c9s2 : GameState := (c9s1.applyMove passMove).toOption.getD c9s1

def c10s1 : GameState :=
  ((GameState.newGame 4).applyMove passMove).toOption.getD (GameState.newGame 4)

/-- The board representation invariant maintained by successful placements:
grid keys are on-grid; each mapped point is a stone of its object's value;
an object's stones all map back to that object; mapped object ids are below
the allocation counter; and each live object's liberty set is exactly the set
of on-grid empty points orthogonally adjacent to one of its stones. -/
structure BoardInv (b : Board) : Prop where
  hongrid : ∀ p i, b.grid p = some i → b.isOnGrid p = true
  hmem : ∀ p i, b.grid p = some i → p ∈ (b.heap i).stones
  hcoh : ∀ p i, b.grid p = some i → ∀ q ∈ (b.heap i).stones, b.grid q = some i
  hlt : ∀ p i, b.grid p = some i → i < b.next
  hlib : ∀ p i, b.grid p = some i → ∀ q,
    (q ∈ (b.heap i).liberties ↔
      b.isOnGrid q = true ∧ b.grid q = none
        ∧ ∃ s ∈ (b.heap i).stones, q ∈ s.neighbors)

/-- Stones contributed by the string (if any) occupying point `n` on `b0`,
when it has the placing player's color. -/
def origEntryStones (b0 : Board) (player : Player) (n : Point) : Finset Point :=
  match b0.grid n with
  | some i => if (b0.heap i).color = player then (b0.heap i).stones else ∅
  | none => ∅

/-- Liberties contributed by the string (if any) occupying point `n` on `b0`,
when it has the placing player's color. -/
def origEntryLibs (b0 : Board) (player : Player) (n : Point) : Finset Point :=
  match b0.grid n with
  | some i => if (b0.heap i).color = player then (b0.heap i).liberties else ∅
  | none => ∅

/-- Union of the stones of all same-color strings adjacent through the
processed neighbor list `P`. -/
def origStones (b0 : Board) (player : Player) (P : List Point) : Finset Point :=
  P.toFinset.biUnion (origEntryStones b0 player)

/-- Union of the liberties of all same-color strings adjacent through the
processed neighbor list `P`. -/
def origLibs (b0 : Board) (player : Player) (P : List Point) : Finset Point :=
  P.toFinset.biUnion (origEntryLibs b0 player)

/-- The on-grid empty points among the processed neighbor list `P`. -/
def emptiesOf (b0 : Board) (P : List Point) : Finset Point :=
  P.toFinset.filter (fun n => b0.isOnGrid n = true ∧ b0.grid n = none)

/-- The stone set of the merged string after processing neighbors `P`. -/
def mergedStones (b0 : Board) (player : Player) (point : Point) (P : List Point) :
    Finset Point :=
  insert point (origStones b0 player P)

/-- The liberty set of the merged string after processing neighbors `P`. -/
def mergedLiberties (b0 : Board) (player : Player) (point : Point) (P : List Point) :
    Finset Point :=
  (emptiesOf b0 P ∪ origLibs b0 player P) \ mergedStones b0 player point P

/-- Union of the stone sets of the listed objects. -/
def unionStones (b : Board) (l : List Nat) : Finset Point :=
  l.foldr (fun j acc => (b.heap j).stones ∪ acc) ∅

/-- Union of the liberty sets of the listed objects. -/
def unionLibs (b : Board) (l : List Nat) : Finset Point :=
  l.foldr (fun j acc => (b.heap j).liberties ∪ acc) ∅

/-- Loop invariant of the neighbor loop of `place_stone`, while no
opposite-color string has been encountered and at least one on-grid neighbor
has been processed (`curId` is the object allocated by the most recent body
run).  `b0` is the board at entry, `P` the processed prefix of
`point.neighbors`, `st` the current loop state. -/
structure InvA (b0 : Board) (player : Player) (point : Point) (P : List Point)
    (st : PSState) (curId : Nat) : Prop where
  hrows : st.board.numRows = b0.numRows
  hcols : st.board.numCols = b0.numCols
  hopp : st.opp = []
  hlibs : st.libs.toFinset = emptiesOf b0 P
  hgrid : ∀ q, st.board.grid q
      = if q ∈ mergedStones b0 player point P then some curId else b0.grid q
  hcur : st.board.heap curId
      = ⟨player, mergedStones b0 player point P, mergedLiberties b0 player point P⟩
  hold : ∀ i, i < b0.next → st.board.heap i = b0.heap i
  hfresh : b0.next ≤ curId
  hnext : curId < st.board.next
  hsame_color : ∀ j ∈ st.same, (st.board.heap j).color = player
  hsame_lt : ∀ j ∈ st.same, j < st.board.next
  hsame_stones : insert point (unionStones st.board st.same)
      = mergedStones b0 player point P
  hsame_libs_sub : unionLibs st.board st.same
      ⊆ emptiesOf b0 P ∪ origLibs b0 player P
  hsame_libs_sup : mergedLiberties b0 player point P
      ⊆ emptiesOf b0 P ∪ unionLibs st.board st.same
  hnoopp : ∀ m ∈ P, ∀ j, b0.grid m = some j → (b0.heap j).color = player

/-- Loop invariant after the opposite-color neighbor has been processed:
its liberty for `point` is gone (so any further on-grid neighbor makes the
re-run removal loop raise `KeyError`), and provided every unprocessed
neighbor is off-grid, the current board already satisfies the board
invariant. -/
structure InvB (b0 : Board) (player : Player) (point : Point) (P : List Point)
    (st : PSState) (oppId : Nat) : Prop where
  hopp : st.opp = [oppId]
  hoppfresh : oppId < st.board.next
  hnolib : point ∉ (st.board.heap oppId).liberties
  hrows : st.board.numRows = b0.numRows
  hcols : st.board.numCols = b0.numCols
  hfinal : (∀ m ∈ point.neighbors, m ∉ P → b0.isOnGrid m = false) → BoardInv st.board

/-- The three phases of the neighbor loop: no body iteration has run yet
(every processed neighbor was off-grid), the same-color/merging phase, and
the post-opposite-color phase. -/
inductive LoopInv (b0 : Board) (player : Player) (point : Point) :
    List Point → PSState → Prop
  | nobody (P : List Point) (hP : ∀ n ∈ P, b0.isOnGrid n = false) :
      LoopInv b0 player point P ⟨b0, [], [], []⟩
  | phaseA (P : List Point) (st : PSState) (curId : Nat)
      (h : InvA b0 player point P st curId) : LoopInv b0 player point P st
  | phaseB (P : List Point) (st : PSState) (oppId : Nat)
      (h : InvB b0 player point P st oppId) : LoopInv b0 player point P st

/-- C1: placing a stone that reduces an adjacent opposite-color group's
liberty count to zero is claimed to return with the whole group removed and
each vacated point added as a liberty of every remaining adjacent group of a
different color.  On the concrete reachable 2×2 board with black caught at
(2,2) on one liberty, white's capturing play at (1,2) instead raises
`KeyError`: the mis-indented loop body runs the opposite-color liberty
removal once per neighbor, removing the same liberty twice.  The board is
left half-mutated: the black stone was removed, but the adjacent white group
at (1,2) was re-registered afterwards without the vacated liberty (2,2). -/
theorem place_stone_capture_raises_keyError :
    ((Board.init 2 2).placeStone .black ⟨2, 2⟩).1 = none
    ∧ (c1bA.placeStone .white ⟨2, 1⟩).1 = none
    ∧ c1bB.getGoString ⟨2, 2⟩ = some ⟨.black, {⟨2, 2⟩}, {⟨1, 2⟩}⟩
    ∧ (c1bB.placeStone .white ⟨1, 2⟩).1 = some .keyError
    ∧ (c1bB.placeStone .white ⟨1, 2⟩).2.getGoString ⟨2, 2⟩ = none
    ∧ ((c1bB.placeStone .white ⟨1, 2⟩).2.getGoString ⟨1, 2⟩).map GoString.liberties
        = some {⟨1, 1⟩} := by
  decide

/-- C3: on a 1×1 board every neighbor of (1,1) is off-grid, so the
mis-indented loop body (which contains the grid registration) never runs:
`place_stone` returns without failing, yet `get_go_string((1,1))` is `None`,
contradicting the claim that a successful placement leaves a group of the
placed color containing the point. -/
theorem place_stone_one_by_one_not_registered :
    ((Board.init 1 1).placeStone .black ⟨1, 1⟩).1 = none
    ∧ ((Board.init 1 1).placeStone .black ⟨1, 1⟩).2.getGoString ⟨1, 1⟩ = none := by
  decide

/-- C4: `place_stone` is claimed to fail only before committing any mutation.
On the reachable 5×5 board with black at (3,3), white's play at (2,3) (whose
preconditions hold: on-grid and unoccupied) raises `KeyError` *after* having
mutated the board: the white stone is registered in the grid and the black
group has already lost the liberty (2,3) (3 liberties instead of 4). -/
theorem place_stone_raises_after_mutation :
    ((Board.init 5 5).placeStone .black ⟨3, 3⟩).1 = none
    ∧ c4bA.isOnGrid ⟨2, 3⟩ = true
    ∧ c4bA.grid ⟨2, 3⟩ = none
    ∧ (c4bA.placeStone .white ⟨2, 3⟩).1 = some .keyError
    ∧ ((c4bA.placeStone .white ⟨2, 3⟩).2.getGoString ⟨2, 3⟩).isSome = true
    ∧ ((c4bA.placeStone .white ⟨2, 3⟩).2.getGoString ⟨3, 3⟩).map GoString.numLiberties
        = some 3
    ∧ (c4bA.getGoString ⟨3, 3⟩).map GoString.numLiberties = some 4 := by
  decide

/-- C5: constructing a `Move` with zero or exactly two of
{point, pass, resign} fails, as the claim says — but with *all three* set the
XOR chain `(point is not None) ^ is_pass ^ is_resign` evaluates to `True`, so
the assert passes and construction succeeds, contradicting the claim that
more than one set action must fail. -/
theorem move_init_accepts_all_three_flags :
    mkMove (some ⟨1, 1⟩) true true = .ok ⟨some ⟨1, 1⟩, true, true⟩
    ∧ mkMove none false false = .error .invalidMove
    ∧ mkMove (some ⟨1, 1⟩) true false = .error .invalidMove
    ∧ mkMove none true true = .error .invalidMove
    ∧ mkMove (some ⟨1, 1⟩) false false = .ok ⟨some ⟨1, 1⟩, false, false⟩
    ∧ mkMove none true false = .ok ⟨none, true, false⟩
    ∧ mkMove none false true = .ok ⟨none, false, true⟩ := by
  decide

/-- C7: merging same-color strings.  `merged_with` returns the pure merged
value under its color precondition; merging is associative and commutative on
the resulting stone and liberty sets; the result's stones are the union of
the inputs' stones and its liberties the union of the inputs' liberties minus
the combined stones. -/
theorem mergedWith_assoc_comm_union (a b c : GoString)
    (h1 : a.color = b.color) (h2 : b.color = c.color) :
    a.mergedWith b = .ok (a.mergedValue b)
    ∧ b.mergedWith c = .ok (b.mergedValue c)
    ∧ a.mergedWith (b.mergedValue c) = .ok (a.mergedValue (b.mergedValue c))
    ∧ (a.mergedValue b).mergedWith c = .ok ((a.mergedValue b).mergedValue c)
    ∧ (a.mergedValue (b.mergedValue c)).stones = ((a.mergedValue b).mergedValue c).stones
    ∧ (a.mergedValue (b.mergedValue c)).liberties
        = ((a.mergedValue b).mergedValue c).liberties
    ∧ (a.mergedValue b).stones = (b.mergedValue a).stones
    ∧ (a.mergedValue b).liberties = (b.mergedValue a).liberties
    ∧ (a.mergedValue b).stones = a.stones ∪ b.stones
    ∧ (a.mergedValue b).liberties = (a.liberties ∪ b.liberties) \ (a.stones ∪ b.stones) := by
  refine ⟨?_, ?_, ?_, ?_, ?_, ?_, ?_, ?_, rfl, rfl⟩
  · simp [GoString.mergedWith, h1]
  · simp [GoString.mergedWith, h2]
  · simp [GoString.mergedWith, GoString.mergedValue, h1, h2]
  · simp [GoString.mergedWith, GoString.mergedValue, h1, h2]
  · simp [GoString.mergedValue, Finset.union_assoc]
  · simp only [GoString.mergedValue]
    ext q
    simp only [Finset.mem_sdiff, Finset.mem_union]
    tauto
  · simp [GoString.mergedValue, Finset.union_comm]
  · simp only [GoString.mergedValue]
    ext q
    simp only [Finset.mem_sdiff, Finset.mem_union]
    tauto

/-- Witness for C7 at concrete same-color strings. -/
theorem mergedWith_assoc_comm_union_witness :
    let a : GoString := ⟨.black, {⟨1, 1⟩}, {⟨1, 2⟩, ⟨2, 1⟩}⟩
    let b : GoString := ⟨.black, {⟨2, 1⟩}, {⟨1, 1⟩, ⟨3, 1⟩, ⟨2, 2⟩}⟩
    let c : GoString := ⟨.black, {⟨3, 1⟩}, {⟨2, 1⟩, ⟨4, 1⟩, ⟨3, 2⟩}⟩
    a.mergedWith b = .ok (a.mergedValue b)
    ∧ b.mergedWith c = .ok (b.mergedValue c)
    ∧ a.mergedWith (b.mergedValue c) = .ok (a.mergedValue (b.mergedValue c))
    ∧ (a.mergedValue b).mergedWith c = .ok ((a.mergedValue b).mergedValue c)
    ∧ (a.mergedValue (b.mergedValue c)).stones = ((a.mergedValue b).mergedValue c).stones
    ∧ (a.mergedValue (b.mergedValue c)).liberties
        = ((a.mergedValue b).mergedValue c).liberties
    ∧ (a.mergedValue b).stones = (b.mergedValue a).stones
    ∧ (a.mergedValue b).liberties = (b.mergedValue a).liberties
    ∧ (a.mergedValue b).stones = a.stones ∪ b.stones
    ∧ (a.mergedValue b).liberties = (a.liberties ∪ b.liberties) \ (a.stones ∪ b.stones) := by
  refine
    (mergedWith_assoc_comm_union ⟨.black, {⟨1, 1⟩}, {⟨1, 2⟩, ⟨2, 1⟩}⟩
      ⟨.black, {⟨2, 1⟩}, {⟨1, 1⟩, ⟨3, 1⟩, ⟨2, 2⟩}⟩
      ⟨.black, {⟨3, 1⟩}, {⟨2, 1⟩, ⟨4, 1⟩, ⟨3, 2⟩}⟩ rfl rfl).imp ?_ ?_ <;> exact id

/-- A successful `apply_move` produces a state whose back-pointer is the input
state and whose last move is the applied move. -/
theorem applyMove_ok_shape {s s' : GameState} {m : Move}
    (h : s.applyMove m = .ok s') :
    s'.previousState = some s ∧ s'.lastMove = some m := by
  unfold GameState.applyMove at h
  split at h
  · split at h
    · cases h
      exact ⟨rfl, rfl⟩
    · cases h
  · cases h
    exact ⟨rfl, rfl⟩

/-- C8: for a Play move, `apply_move` leaves the input state's board
untouched: the placement acts only on the deep clone, and the returned
state's back-pointer still carries the input state with its original board
value. -/
theorem applyMove_play_preserves_input_board (s : GameState) (m : Move) (s' : GameState)
    (_hplay : m.isPlay = true) (h : s.applyMove m = .ok s') :
    s'.previousState = some s ∧ s'.previousState.map GameState.board = some s.board := by
  obtain ⟨h1, _⟩ := applyMove_ok_shape h
  exact ⟨h1, by rw [h1]; rfl⟩

/-- Witness for C8: a concrete play on a fresh 5×5 game. -/
theorem applyMove_play_preserves_input_board_witness :
    c8next.previousState = some (GameState.newGame 5)
    ∧ c8next.previousState.map GameState.board = some (GameState.newGame 5).board :=
  applyMove_play_preserves_input_board (GameState.newGame 5) ⟨some ⟨3, 3⟩, false, false⟩
    c8next rfl rfl

/-- On every reachable state, `last_move` is absent exactly when
`previous_state` is absent. -/
theorem reachable_link {s : GameState} (h : ReachableState s) :
    s.lastMove = none ↔ s.previousState = none := by
  induction h with
  | newGame n => exact ⟨fun _ => rfl, fun _ => rfl⟩
  | step _ hstep _ =>
    obtain ⟨h1, h2⟩ := applyMove_ok_shape hstep
    rw [h1, h2]
    simp

/-- When the back-pointer invariant holds, `is_over` does not crash and
agrees with the claimed rule. -/
theorem isOver_eq_spec_of_link (s : GameState)
    (hlink : s.lastMove = none ↔ s.previousState = none) :
    s.isOver = some (specIsOver s) := by
  rcases s with ⟨b, np, prev, last⟩
  cases last with
  | none => rfl
  | some m =>
    cases prev with
    | none =>
      exact absurd (hlink.mpr rfl) (by simp [GameState.lastMove])
    | some ps =>
      rcases ps with ⟨b2, np2, prev2, last2⟩
      show GameState.isOver (.mk b np (some (.mk b2 np2 prev2 last2)) (some m)) = _
      unfold GameState.isOver specIsOver
      cases hm : m.is_resign <;> cases last2 <;>
        simp [GameState.lastMove, GameState.previousState, hm]

/-- C9: on every reachable game state, `is_over` returns (without crashing)
exactly the claimed value: `False` with no last move, `True` after a resign,
otherwise `True` iff the last two moves are both passes, `False` when there
is no preceding move. -/
theorem isOver_matches_spec (s : GameState) (h : ReachableState s) :
    s.isOver = some (specIsOver s) :=
  isOver_eq_spec_of_link s (reachable_link h)

theorem c9s1_eq : (GameState.newGame 3).applyMove passMove = .ok c9s1 := rfl

theorem c9s2_eq : c9s1.applyMove passMove = .ok c9s2 := rfl

/-- Witness for C9: after two consecutive passes from a fresh game the rule
applies (and indeed evaluates to game over). -/
theorem isOver_matches_spec_witness :
    c9s2.isOver = some (specIsOver c9s2) ∧ c9s2.isOver = some true :=
  ⟨isOver_matches_spec c9s2
    (ReachableState.step (ReachableState.step (ReachableState.newGame 3) c9s1_eq) c9s2_eq),
   rfl⟩

/-- C10: every state reachable through the public API has `last_move` absent
iff `previous_state` is absent; consequently `is_over` never dereferences an
absent previous state when a last move exists (it always returns a value). -/
theorem reachable_state_invariant (s : GameState) (h : ReachableState s) :
    (s.lastMove = none ↔ s.previousState = none) ∧ s.isOver.isSome = true := by
  refine ⟨reachable_link h, ?_⟩
  rw [isOver_eq_spec_of_link s (reachable_link h)]
  rfl

theorem c10s1_eq : (GameState.newGame 4).applyMove passMove = .ok c10s1 := rfl

/-- A point is not its own neighbor. -/
theorem point_not_mem_neighbors (p : Point) : p ∉ p.neighbors := by
  rcases p with ⟨r, c⟩
  simp only [Point.neighbors, List.mem_cons, List.not_mem_nil, or_false,
    Point.mk.injEq]
  omega

/-- The four neighbors are pairwise distinct. -/
theorem neighbors_nodup (p : Point) : p.neighbors.Nodup := by
  rcases p with ⟨r, c⟩
  simp only [Point.neighbors, List.nodup_cons, List.mem_cons, List.not_mem_nil,
    or_false, Point.mk.injEq, List.nodup_nil, and_true, not_or, true_and,
    not_false_eq_true]
  omega

/-- Orthogonal adjacency is symmetric. -/
theorem mem_neighbors_symm {p q : Point} : q ∈ p.neighbors ↔ p ∈ q.neighbors := by
  rcases p with ⟨pr, pc⟩
  rcases q with ⟨qr, qc⟩
  simp only [Point.neighbors, List.mem_cons, List.not_mem_nil, or_false,
    Point.mk.injEq]
  omega

/-- `is_on_grid` only depends on the board dimensions. -/
theorem isOnGrid_eq_of_dims {b1 b2 : Board} (hr : b1.numRows = b2.numRows)
    (hc : b1.numCols = b2.numCols) (p : Point) : b1.isOnGrid p = b2.isOnGrid p := by
  simp [Board.isOnGrid, hr, hc]

/-- The empty board satisfies the board invariant. -/
theorem boardInv_init (r c : Int) : BoardInv (Board.init r c) := by
  refine ⟨?_, ?_, ?_, ?_, ?_⟩ <;> intro p i h <;>
    exact absurd h (by simp [Board.init])

/-- Closed form of the merging fold of `place_stone`: starting from a string
whose stones and liberties are disjoint, folding `mergedValue` over a list of
objects yields the unions, with the liberties cut down by the total stones. -/
theorem foldl_mergedValue (b : Board) (l : List Nat) :
    ∀ init : GoString, (∀ x ∈ init.stones, x ∉ init.liberties) →
      l.foldl (fun acc j => acc.mergedValue (b.heap j)) init
        = ⟨init.color, init.stones ∪ unionStones b l,
            (init.liberties ∪ unionLibs b l) \ (init.stones ∪ unionStones b l)⟩ := by
  induction l with
  | nil =>
    intro init hdisj
    rcases init with ⟨c, s, lb⟩
    simp only [List.foldl_nil, unionStones, unionLibs, List.foldr_nil,
      Finset.union_empty]
    have hlb : lb \ s = lb := by
      ext q
      simp only [Finset.mem_sdiff]
      exact ⟨And.left, fun hq => ⟨hq, fun hs => hdisj q hs hq⟩⟩
    rw [hlb]
  | cons j t ih =>
    intro init hdisj
    simp only [List.foldl_cons]
    rw [ih (init.mergedValue (b.heap j))
      (fun x hx hl => (Finset.mem_sdiff.mp hl).2 hx)]
    simp only [GoString.mergedValue, unionStones, unionLibs, List.foldr_cons,
      GoString.mk.injEq, true_and, eq_self_iff_true]
    refine ⟨Finset.union_assoc _ _ _, ?_⟩
    ext q
    simp only [Finset.mem_sdiff, Finset.mem_union]
    tauto

/-- Two unions agree after removing `S` when one is sandwiched between the
other minus `S` and the other. -/
theorem union_sdiff_eq_of_between {E UL OL S : Finset Point}
    (h1 : UL ⊆ E ∪ OL) (h2 : (E ∪ OL) \ S ⊆ E ∪ UL) :
    (E ∪ UL) \ S = (E ∪ OL) \ S := by
  ext q
  simp only [Finset.mem_sdiff, Finset.mem_union]
  constructor
  · rintro ⟨hq | hq, hs⟩
    · exact ⟨Or.inl hq, hs⟩
    · exact ⟨Finset.mem_union.mp (h1 hq), hs⟩
  · rintro ⟨hq, hs⟩
    have := h2 (Finset.mem_sdiff.mpr ⟨Finset.mem_union.mpr hq, hs⟩)
    exact ⟨Finset.mem_union.mp this, hs⟩

theorem origEntryStones_of_none {b0 : Board} {player : Player} {n : Point}
    (h : b0.grid n = none) : origEntryStones b0 player n = ∅ := by
  simp [origEntryStones, h]

theorem origEntryStones_of_opp {b0 : Board} {player : Player} {n : Point} {i : Nat}
    (h : b0.grid n = some i) (hc : ¬ (b0.heap i).color = player) :
    origEntryStones b0 player n = ∅ := by
  simp [origEntryStones, h, hc]

theorem origEntryStones_of_same {b0 : Board} {player : Player} {n : Point} {i : Nat}
    (h : b0.grid n = some i) (hc : (b0.heap i).color = player) :
    origEntryStones b0 player n = (b0.heap i).stones := by
  simp [origEntryStones, h, hc]

theorem origEntryLibs_of_none {b0 : Board} {player : Player} {n : Point}
    (h : b0.grid n = none) : origEntryLibs b0 player n = ∅ := by
  simp [origEntryLibs, h]

theorem origEntryLibs_of_opp {b0 : Board} {player : Player} {n : Point} {i : Nat}
    (h : b0.grid n = some i) (hc : ¬ (b0.heap i).color = player) :
    origEntryLibs b0 player n = ∅ := by
  simp [origEntryLibs, h, hc]

theorem origEntryLibs_of_same {b0 : Board} {player : Player} {n : Point} {i : Nat}
    (h : b0.grid n = some i) (hc : (b0.heap i).color = player) :
    origEntryLibs b0 player n = (b0.heap i).liberties := by
  simp [origEntryLibs, h, hc]

theorem origStones_append (b0 : Board) (player : Player) (P : List Point) (n : Point) :
    origStones b0 player (P ++ [n])
      = origStones b0 player P ∪ origEntryStones b0 player n := by
  ext q
  simp only [origStones, Finset.mem_biUnion, List.mem_toFinset, List.mem_append,
    List.mem_singleton, Finset.mem_union]
  constructor
  · rintro ⟨m, hm | rfl, hq⟩
    · exact Or.inl ⟨m, hm, hq⟩
    · exact Or.inr hq
  · rintro (⟨m, hm, hq⟩ | hq)
    · exact ⟨m, Or.inl hm, hq⟩
    · exact ⟨n, Or.inr rfl, hq⟩

theorem origLibs_append (b0 : Board) (player : Player) (P : List Point) (n : Point) :
    origLibs b0 player (P ++ [n])
      = origLibs b0 player P ∪ origEntryLibs b0 player n := by
  ext q
  simp only [origLibs, Finset.mem_biUnion, List.mem_toFinset, List.mem_append,
    List.mem_singleton, Finset.mem_union]
  constructor
  · rintro ⟨m, hm | rfl, hq⟩
    · exact Or.inl ⟨m, hm, hq⟩
    · exact Or.inr hq
  · rintro (⟨m, hm, hq⟩ | hq)
    · exact ⟨m, Or.inl hm, hq⟩
    · exact ⟨n, Or.inr rfl, hq⟩

theorem mem_emptiesOf {b0 : Board} {P : List Point} {q : Point} :
    q ∈ emptiesOf b0 P ↔ q ∈ P ∧ b0.isOnGrid q = true ∧ b0.grid q = none := by
  simp [emptiesOf, List.mem_toFinset]

theorem emptiesOf_append (b0 : Board) (P : List Point) (n : Point) :
    emptiesOf b0 (P ++ [n]) = emptiesOf b0 P
      ∪ (if b0.isOnGrid n = true ∧ b0.grid n = none then {n} else ∅) := by
  ext q
  by_cases hn : b0.isOnGrid n = true ∧ b0.grid n = none
  · simp only [if_pos hn, mem_emptiesOf, Finset.mem_union, Finset.mem_singleton,
      List.mem_append, List.mem_singleton]
    constructor
    · rintro ⟨hm | rfl, h2⟩
      · exact Or.inl ⟨hm, h2⟩
      · exact Or.inr rfl
    · rintro (⟨hm, h2⟩ | rfl)
      · exact ⟨Or.inl hm, h2⟩
      · exact ⟨Or.inr rfl, hn⟩
  · simp only [if_neg hn, Finset.union_empty, mem_emptiesOf, List.mem_append,
      List.mem_singleton]
    constructor
    · rintro ⟨hm | rfl, h2⟩
      · exact ⟨hm, h2⟩
      · exact absurd h2 hn
    · rintro ⟨hm, h2⟩
      exact ⟨Or.inl hm, h2⟩

/-- A same-color string adjacent through a processed neighbor contributes its
stones and liberties to the accumulated unions. -/
theorem subsets_of_entry {b0 : Board} {player : Player} {P : List Point}
    {m : Point} (hm : m ∈ P) {j : Nat} (hj : b0.grid m = some j)
    (hc : (b0.heap j).color = player) :
    (b0.heap j).stones ⊆ origStones b0 player P
      ∧ (b0.heap j).liberties ⊆ origLibs b0 player P := by
  constructor
  · intro x hx
    refine Finset.mem_biUnion.mpr ⟨m, List.mem_toFinset.mpr hm, ?_⟩
    rw [origEntryStones_of_same hj hc]
    exact hx
  · intro x hx
    refine Finset.mem_biUnion.mpr ⟨m, List.mem_toFinset.mpr hm, ?_⟩
    rw [origEntryLibs_of_same hj hc]
    exact hx

/-- Every accumulated stone lies in a live same-color string whose stones and
liberties are wholly accumulated. -/
theorem exists_of_mem_origStones {b0 : Board} (hinv : BoardInv b0)
    {player : Player} {P : List Point} {q : Point}
    (hq : q ∈ origStones b0 player P) :
    ∃ k, b0.grid q = some k ∧ (b0.heap k).color = player
      ∧ (b0.heap k).stones ⊆ origStones b0 player P
      ∧ (b0.heap k).liberties ⊆ origLibs b0 player P := by
  obtain ⟨m, hmP, hq⟩ := Finset.mem_biUnion.mp hq
  rw [List.mem_toFinset] at hmP
  unfold origEntryStones at hq
  split at hq
  · rename_i i hgm
    by_cases hc : (b0.heap i).color = player
    · rw [if_pos hc] at hq
      have hgq : b0.grid q = some i := hinv.hcoh m i hgm q hq
      exact ⟨i, hgq, hc, (subsets_of_entry hmP hgm hc).1, (subsets_of_entry hmP hgm hc).2⟩
    · rw [if_neg hc] at hq
      simp at hq
  · simp at hq

/-- Every accumulated liberty comes from a live same-color string whose
stones are wholly accumulated. -/
theorem exists_of_mem_origLibs {b0 : Board} {player : Player} {P : List Point}
    {q : Point} (hq : q ∈ origLibs b0 player P) :
    ∃ k m, m ∈ P ∧ b0.grid m = some k ∧ (b0.heap k).color = player
      ∧ q ∈ (b0.heap k).liberties
      ∧ (b0.heap k).stones ⊆ origStones b0 player P := by
  obtain ⟨m, hmP, hq⟩ := Finset.mem_biUnion.mp hq
  rw [List.mem_toFinset] at hmP
  unfold origEntryLibs at hq
  split at hq
  · rename_i i hgm
    by_cases hc : (b0.heap i).color = player
    · rw [if_pos hc] at hq
      exact ⟨i, m, hmP, hgm, hc, hq, (subsets_of_entry hmP hgm hc).1⟩
    · rw [if_neg hc] at hq
      simp at hq
  · simp at hq

/-- Witness for C10 at the state reached by a single pass. -/
theorem reachable_state_invariant_witness :
    (c10s1.lastMove = none ↔ c10s1.previousState = none) ∧ c10s1.isOver.isSome = true :=
  reachable_state_invariant c10s1 (ReachableState.step (ReachableState.newGame 4) c10s1_eq)

/-- Membership in the sorted stone list agrees with set membership. -/
theorem mem_sortPoints {t : Finset Point} {q : Point} : q ∈ sortPoints t ↔ q ∈ t := by
  rcases t with ⟨m, hm⟩
  revert hm
  induction m using Quotient.inductionOn with
  | h l =>
    intro hm
    show q ∈ l.insertionSort pointLe ↔ _
    rw [List.mem_insertionSort]
    simp [Finset.mem_mk]

/-- The sorted stone list has no duplicates. -/
theorem sortPoints_nodup (t : Finset Point) : (sortPoints t).Nodup := by
  rcases t with ⟨m, hm⟩
  revert hm
  induction m using Quotient.inductionOn with
  | h l =>
    intro hm
    show (l.insertionSort pointLe).Nodup
    exact ((List.perm_insertionSort pointLe l).nodup_iff).mpr (Multiset.coe_nodup.mp hm)

/-- Effect of the inner neighbor loop of `_remove_string` on one stone `p`:
the grid is untouched; object `s` is untouched; any other object adjacent to
`p` (through the current grid) gains `p` as a liberty. -/
theorem addLibertyFold_spec (s : Nat) (p : Point) (ns : List Point) :
    ∀ b : Board,
      (ns.foldl (addLibertyStep s p) b).numRows = b.numRows
      ∧ (ns.foldl (addLibertyStep s p) b).numCols = b.numCols
      ∧ (ns.foldl (addLibertyStep s p) b).next = b.next
      ∧ (ns.foldl (addLibertyStep s p) b).grid = b.grid
      ∧ (ns.foldl (addLibertyStep s p) b).heap s = b.heap s
      ∧ (∀ j, j ≠ s → (ns.foldl (addLibertyStep s p) b).heap j =
          if ∃ n ∈ ns, b.grid n = some j
          then ⟨(b.heap j).color, (b.heap j).stones, insert p (b.heap j).liberties⟩
          else b.heap j) := by
  induction ns with
  | nil =>
    intro b
    refine ⟨rfl, rfl, rfl, rfl, rfl, fun j _ => ?_⟩
    rw [if_neg (show ¬ ∃ n ∈ ([] : List Point), b.grid n = some j by simp)]
    rfl
  | cons n t ih =>
    intro b
    simp only [List.foldl_cons]
    rcases hgn : b.grid n with _ | j0
    · have hstep : addLibertyStep s p b n = b := by simp [addLibertyStep, hgn]
      rw [hstep]
      obtain ⟨h1, h2, h3, h4, h5, h6⟩ := ih b
      refine ⟨h1, h2, h3, h4, h5, fun j hj => ?_⟩
      rw [h6 j hj]
      by_cases hc : ∃ m ∈ t, b.grid m = some j
      · rw [if_pos hc, if_pos (show ∃ m ∈ n :: t, b.grid m = some j from by
          obtain ⟨m, hm, hmg⟩ := hc
          exact ⟨m, List.mem_cons_of_mem n hm, hmg⟩)]
      · rw [if_neg hc, if_neg (show ¬ ∃ m ∈ n :: t, b.grid m = some j from by
          rintro ⟨m, hm, hmg⟩
          rcases List.mem_cons.mp hm with rfl | hm
          · rw [hgn] at hmg
            cases hmg
          · exact hc ⟨m, hm, hmg⟩)]
    · by_cases hj0 : j0 = s
      · have hstep : addLibertyStep s p b n = b := by
          simp [addLibertyStep, hgn, hj0]
        rw [hstep]
        obtain ⟨h1, h2, h3, h4, h5, h6⟩ := ih b
        refine ⟨h1, h2, h3, h4, h5, fun j hj => ?_⟩
        rw [h6 j hj]
        by_cases hc : ∃ m ∈ t, b.grid m = some j
        · rw [if_pos hc, if_pos (show ∃ m ∈ n :: t, b.grid m = some j from by
            obtain ⟨m, hm, hmg⟩ := hc
            exact ⟨m, List.mem_cons_of_mem n hm, hmg⟩)]
        · rw [if_neg hc, if_neg (show ¬ ∃ m ∈ n :: t, b.grid m = some j from by
            rintro ⟨m, hm, hmg⟩
            rcases List.mem_cons.mp hm with rfl | hm
            · rw [hgn] at hmg
              exact hj ((Option.some_inj.mp hmg).symm.trans hj0)
            · exact hc ⟨m, hm, hmg⟩)]
      · have hstep : addLibertyStep s p b n
            = b.setHeap j0 ((b.heap j0).addLiberty p) := by
          simp [addLibertyStep, hgn, hj0]
        rw [hstep]
        obtain ⟨h1, h2, h3, h4, h5, h6⟩ := ih (b.setHeap j0 ((b.heap j0).addLiberty p))
        have hgrid1 : (b.setHeap j0 ((b.heap j0).addLiberty p)).grid = b.grid := rfl
        have hheap1j0 : (b.setHeap j0 ((b.heap j0).addLiberty p)).heap j0
            = ⟨(b.heap j0).color, (b.heap j0).stones, insert p (b.heap j0).liberties⟩ := by
          simp [Board.setHeap, GoString.addLiberty]
        have hheap1ne : ∀ j, j ≠ j0
            → (b.setHeap j0 ((b.heap j0).addLiberty p)).heap j = b.heap j := by
          intro j hj
          simp [Board.setHeap, hj]
        refine ⟨h1, h2, h3, by rw [h4, hgrid1], ?_, fun j hj => ?_⟩
        · rw [h5, hheap1ne s (fun hss => hj0 hss.symm)]
        · rw [h6 j hj, hgrid1]
          by_cases hjj : j = j0
          · rw [hjj, hheap1j0]
            rw [if_pos (show ∃ m ∈ n :: t, b.grid m = some j0 from
              ⟨n, List.mem_cons_self n t, hgn⟩)]
            by_cases hc : ∃ m ∈ t, b.grid m = some j0
            · rw [if_pos hc]
              simp [Finset.insert_idem]
            · rw [if_neg hc]
          · rw [hheap1ne j hjj]
            by_cases hc : ∃ m ∈ t, b.grid m = some j
            · rw [if_pos hc, if_pos (show ∃ m ∈ n :: t, b.grid m = some j from by
                obtain ⟨m, hm, hmg⟩ := hc
                exact ⟨m, List.mem_cons_of_mem n hm, hmg⟩)]
            · rw [if_neg hc, if_neg (show ¬ ∃ m ∈ n :: t, b.grid m = some j from by
                rintro ⟨m, hm, hmg⟩
                rcases List.mem_cons.mp hm with rfl | hm
                · rw [hgn] at hmg
                  exact hjj (Option.some_inj.mp hmg).symm
                · exact hc ⟨m, hm, hmg⟩)]

/-- Effect of one outer iteration of `_remove_string` on stone `p`. -/
theorem removeStoneStep_spec (b : Board) (s : Nat) (p : Point) :
    (b.removeStoneStep s p).numRows = b.numRows
    ∧ (b.removeStoneStep s p).numCols = b.numCols
    ∧ (b.removeStoneStep s p).next = b.next
    ∧ (∀ q, (b.removeStoneStep s p).grid q = if q = p then none else b.grid q)
    ∧ (b.removeStoneStep s p).heap s = b.heap s
    ∧ (∀ j, j ≠ s → (b.removeStoneStep s p).heap j =
        if ∃ n ∈ p.neighbors, b.grid n = some j
        then ⟨(b.heap j).color, (b.heap j).stones, insert p (b.heap j).liberties⟩
        else b.heap j) := by
  obtain ⟨h1, h2, h3, h4, h5, h6⟩ := addLibertyFold_spec s p p.neighbors b
  exact ⟨h1, h2, h3, fun q => by simp only [Board.removeStoneStep]; rw [h4],
    h5, h6⟩

/-- Effect of the outer loop of `_remove_string` over a duplicate-free list of
stones that all map to object `s`: those points become empty, object `s` keeps
its value, and every other object gains every listed point adjacent to it. -/
theorem removeFold_spec (s : Nat) :
    ∀ (l : List Point) (b : Board), l.Nodup → (∀ q ∈ l, b.grid q = some s) →
      (l.foldl (fun acc q => acc.removeStoneStep s q) b).numRows = b.numRows
      ∧ (l.foldl (fun acc q => acc.removeStoneStep s q) b).numCols = b.numCols
      ∧ (l.foldl (fun acc q => acc.removeStoneStep s q) b).next = b.next
      ∧ (∀ q, (l.foldl (fun acc q => acc.removeStoneStep s q) b).grid q
          = if q ∈ l then none else b.grid q)
      ∧ (l.foldl (fun acc q => acc.removeStoneStep s q) b).heap s = b.heap s
      ∧ (∀ j, j ≠ s → (l.foldl (fun acc q => acc.removeStoneStep s q) b).heap j
          = ⟨(b.heap j).color, (b.heap j).stones,
              (b.heap j).liberties ∪ (l.filter
                (fun q => decide (∃ n ∈ q.neighbors, b.grid n = some j))).toFinset⟩) := by
  intro l
  induction l with
  | nil =>
    intro b _ _
    refine ⟨rfl, rfl, rfl, fun q => ?_, rfl, fun j hj => ?_⟩
    · rw [if_neg (by simp)]
      rfl
    · simp only [List.foldl_nil, List.filter_nil, List.toFinset_nil,
        Finset.union_empty]
  | cons q0 t ih =>
    intro b hnd hmap
    simp only [List.foldl_cons]
    obtain ⟨r1, r2, r3, r4, r5, r6⟩ := removeStoneStep_spec b s q0
    have hmap2 : ∀ q ∈ t, (b.removeStoneStep s q0).grid q = some s := by
      intro q hq
      rw [r4 q, if_neg ?_]
      · exact hmap q (List.mem_cons_of_mem q0 hq)
      · rintro rfl
        exact (List.nodup_cons.mp hnd).1 hq
    obtain ⟨i1, i2, i3, i4, i5, i6⟩ :=
      ih (b.removeStoneStep s q0) (List.nodup_cons.mp hnd).2 hmap2
    refine ⟨i1.trans r1, i2.trans r2, i3.trans r3, fun q => ?_, i5.trans r5,
      fun j hj => ?_⟩
    · rw [i4 q, r4 q]
      by_cases hql : q ∈ t
      · rw [if_pos hql, if_pos (List.mem_cons_of_mem q0 hql)]
      · rw [if_neg hql]
        by_cases hq0 : q = q0
        · rw [if_pos hq0, if_pos (by rw [hq0]; exact List.mem_cons_self q0 t)]
        · rw [if_neg hq0, if_neg (by
            intro hmem
            rcases List.mem_cons.mp hmem with h | h
            · exact hq0 h
            · exact hql h)]
    · rw [i6 j hj]
      have hgrid_eq : ∀ n, ((b.removeStoneStep s q0).grid n = some j)
          ↔ (b.grid n = some j) := by
        intro n
        rw [r4 n]
        by_cases hn : n = q0
        · rw [if_pos hn, hn]
          rw [hmap q0 (List.mem_cons_self q0 t)]
          constructor
          · intro h
            cases h
          · intro h
            exact absurd (Option.some_inj.mp h).symm hj
        · rw [if_neg hn]
      have hfilter : t.filter
            (fun q => decide (∃ n ∈ q.neighbors, (b.removeStoneStep s q0).grid n = some j))
          = t.filter (fun q => decide (∃ n ∈ q.neighbors, b.grid n = some j)) := by
        apply List.filter_congr
        intro q _
        apply decide_eq_decide.mpr
        constructor
        · rintro ⟨n, hn, hng⟩
          exact ⟨n, hn, (hgrid_eq n).mp hng⟩
        · rintro ⟨n, hn, hng⟩
          exact ⟨n, hn, (hgrid_eq n).mpr hng⟩
      rw [hfilter, r6 j hj]
      by_cases hc : ∃ n ∈ q0.neighbors, b.grid n = some j
      · rw [if_pos hc]
        have hfc : (q0 :: t).filter
              (fun q => decide (∃ n ∈ q.neighbors, b.grid n = some j))
            = q0 :: t.filter (fun q => decide (∃ n ∈ q.neighbors, b.grid n = some j)) :=
          List.filter_cons_of_pos (by exact decide_eq_true hc)
        rw [hfc]
        simp only [List.toFinset_cons]
        refine congrArg _ ?_
        ext x
        simp only [Finset.mem_union, Finset.mem_insert, List.mem_toFinset]
        tauto
      · rw [if_neg hc]
        have hfc : (q0 :: t).filter
              (fun q => decide (∃ n ∈ q.neighbors, b.grid n = some j))
            = t.filter (fun q => decide (∃ n ∈ q.neighbors, b.grid n = some j)) :=
          List.filter_cons_of_neg (by simpa using hc)
        rw [hfc]

/-- Effect of `Board._remove_string` on a coherently stored string: its stones
become empty points, its own object value is untouched, and every other object
gains as liberties exactly the removed stones adjacent to it. -/
theorem removeString_spec (b : Board) (s : Nat)
    (hcohs : ∀ q ∈ (b.heap s).stones, b.grid q = some s) :
    (b.removeString s).numRows = b.numRows
    ∧ (b.removeString s).numCols = b.numCols
    ∧ (b.removeString s).next = b.next
    ∧ (∀ q, (b.removeString s).grid q
        = if q ∈ (b.heap s).stones then none else b.grid q)
    ∧ (b.removeString s).heap s = b.heap s
    ∧ (∀ j, j ≠ s → (b.removeString s).heap j
        = ⟨(b.heap j).color, (b.heap j).stones,
            (b.heap j).liberties ∪ (b.heap s).stones.filter
              (fun q => ∃ n ∈ q.neighbors, b.grid n = some j)⟩) := by
  obtain ⟨h1, h2, h3, h4, h5, h6⟩ := removeFold_spec s (sortPoints (b.heap s).stones) b
    (sortPoints_nodup _) (fun q hq => hcohs q (mem_sortPoints.mp hq))
  unfold Board.removeString
  refine ⟨h1, h2, h3, fun q => ?_, h5, fun j hj => ?_⟩
  · rw [h4 q]
    by_cases hq : q ∈ (b.heap s).stones
    · rw [if_pos (mem_sortPoints.mpr hq), if_pos hq]
    · rw [if_neg (fun hmem => hq (mem_sortPoints.mp hmem)), if_neg hq]
  · rw [h6 j hj]
    refine congrArg _ ?_
    refine congrArg _ ?_
    ext q
    simp only [List.mem_toFinset, List.mem_filter, Finset.mem_filter,
      mem_sortPoints, decide_eq_true_eq]

/-- When the processed prefix covers every on-grid neighbor of `point`, the
computed liberty set of the merged string is exactly the set of on-grid empty
points other than `point` adjacent to one of its stones (on the entry
board). -/
theorem mem_mergedLiberties_iff {b0 : Board} {player : Player} {point : Point}
    {P : List Point} (hinv : BoardInv b0)
    (hptempty : b0.grid point = none)
    (hPsub : ∀ m ∈ P, m ∈ point.neighbors)
    (hPcov : ∀ m ∈ point.neighbors, b0.isOnGrid m = true → m ∈ P)
    (q : Point) :
    q ∈ mergedLiberties b0 player point P ↔
      (b0.isOnGrid q = true ∧ b0.grid q = none ∧ q ≠ point
        ∧ ∃ s ∈ mergedStones b0 player point P, q ∈ s.neighbors) := by
  constructor
  · intro hq
    obtain ⟨hq, hqS⟩ := Finset.mem_sdiff.mp hq
    have hqpt : q ≠ point := fun hqq =>
      hqS (hqq ▸ Finset.mem_insert_self point (origStones b0 player P))
    rcases Finset.mem_union.mp hq with hqE | hqL
    · obtain ⟨hqP, hqon, hqnone⟩ := mem_emptiesOf.mp hqE
      exact ⟨hqon, hqnone, hqpt,
        point, Finset.mem_insert_self _ _, hPsub q hqP⟩
    · obtain ⟨k, m, hmP, hgm, hck, hqlib, hks⟩ := exists_of_mem_origLibs hqL
      obtain ⟨hqon, hqnone, s, hs, hsn⟩ := (hinv.hlib m k hgm q).mp hqlib
      exact ⟨hqon, hqnone, hqpt, s, Finset.mem_insert_of_mem (hks hs), hsn⟩
  · rintro ⟨hqon, hqnone, hqpt, s, hsS, hqn⟩
    have hqOS : q ∉ origStones b0 player P := fun hq => by
      obtain ⟨k, hgk, -, -, -⟩ := exists_of_mem_origStones hinv hq
      rw [hqnone] at hgk
      cases hgk
    have hqS : q ∉ mergedStones b0 player point P := fun hq => by
      rcases Finset.mem_insert.mp hq with h | h
      · exact hqpt h
      · exact hqOS h
    refine Finset.mem_sdiff.mpr ⟨?_, hqS⟩
    rcases Finset.mem_insert.mp hsS with rfl | hsOS
    · refine Finset.mem_union_left _ (mem_emptiesOf.mpr ⟨?_, hqon, hqnone⟩)
      exact hPcov q hqn hqon
    · obtain ⟨k, hgs, hck, hks, hkl⟩ := exists_of_mem_origStones hinv hsOS
      refine Finset.mem_union_right _ (hkl ?_)
      rw [hinv.hlib s k hgs q]
      exact ⟨hqon, hqnone, s, hinv.hmem s k hgs, hqn⟩

/-- A live string none of whose stones were merged has all its stones outside
the merged stone set. -/
theorem survivor_stones_not_merged {b0 : Board} {player : Player} {point : Point}
    {P : List Point} (hinv : BoardInv b0) (hptempty : b0.grid point = none)
    {i : Nat} {pw : Point} (hpw : b0.grid pw = some i)
    (hpwS : pw ∉ mergedStones b0 player point P) :
    ∀ x ∈ (b0.heap i).stones, x ∉ mergedStones b0 player point P := by
  intro x hx hxS
  rcases Finset.mem_insert.mp hxS with rfl | hxOS
  · rw [hinv.hcoh pw i hpw x hx] at hptempty
    cases hptempty
  · obtain ⟨k, hgk, hck, hks, -⟩ := exists_of_mem_origStones hinv hxOS
    rw [hinv.hcoh pw i hpw x hx] at hgk
    obtain rfl : i = k := Option.some_inj.mp hgk
    exact hpwS (Finset.mem_insert_of_mem (hks (hinv.hmem pw i hpw)))

/-- A live string that survives the placement (not merged, not the processed
opposite-color string) has no stone adjacent to the placed point. -/
theorem survivor_not_adjacent {b0 : Board} {player : Player} {point : Point}
    {P : List Point} (hinv : BoardInv b0) (hptempty : b0.grid point = none)
    (hPcov : ∀ m ∈ point.neighbors, b0.isOnGrid m = true → m ∈ P)
    (oppOk : Nat → Prop)
    (hnoopp : ∀ m ∈ P, ∀ j, b0.grid m = some j
      → (b0.heap j).color = player ∨ oppOk j)
    {i : Nat} {pw : Point} (hpw : b0.grid pw = some i)
    (hpwS : pw ∉ mergedStones b0 player point P) (hnopp : ¬ oppOk i) :
    ∀ x ∈ (b0.heap i).stones, x ∉ point.neighbors := by
  intro x hx hxn
  have hgx : b0.grid x = some i := hinv.hcoh pw i hpw x hx
  have hxon : b0.isOnGrid x = true := hinv.hongrid x i hgx
  have hxP : x ∈ P := hPcov x hxn hxon
  rcases hnoopp x hxP i hgx with hc | ho
  · exact hpwS (Finset.mem_insert_of_mem
      ((subsets_of_entry hxP hgx hc).1 (hinv.hmem pw i hpw)))
  · exact hnopp ho

/-- Consequently, `point` is not a liberty of a surviving string. -/
theorem survivor_point_not_liberty {b0 : Board} {player : Player} {point : Point}
    {P : List Point} (hinv : BoardInv b0) (hptempty : b0.grid point = none)
    (hPcov : ∀ m ∈ point.neighbors, b0.isOnGrid m = true → m ∈ P)
    (oppOk : Nat → Prop)
    (hnoopp : ∀ m ∈ P, ∀ j, b0.grid m = some j
      → (b0.heap j).color = player ∨ oppOk j)
    {i : Nat} {pw : Point} (hpw : b0.grid pw = some i)
    (hpwS : pw ∉ mergedStones b0 player point P) (hnopp : ¬ oppOk i) :
    point ∉ (b0.heap i).liberties := by
  intro hpt
  obtain ⟨-, -, s, hs, hsn⟩ := (hinv.hlib pw i hpw point).mp hpt
  exact survivor_not_adjacent hinv hptempty hPcov oppOk hnoopp hpw hpwS hnopp
    s hs (mem_neighbors_symm.mp hsn)

/-- After the neighbor loop has processed every on-grid neighbor of `point`
without meeting an opposite-color string, the loop state's board satisfies
the board invariant. -/
theorem invA_final_boardInv {b0 : Board} {player : Player} {point : Point}
    {P : List Point} {st : PSState} {curId : Nat}
    (hinv : BoardInv b0) (hpton : b0.isOnGrid point = true)
    (hptempty : b0.grid point = none)
    (hPsub : ∀ m ∈ P, m ∈ point.neighbors)
    (hPcov : ∀ m ∈ point.neighbors, b0.isOnGrid m = true → m ∈ P)
    (hA : InvA b0 player point P st curId) :
    BoardInv st.board := by
  have hongrid_eq : ∀ q, st.board.isOnGrid q = b0.isOnGrid q :=
    isOnGrid_eq_of_dims hA.hrows hA.hcols
  have hnoopp2 : ∀ m ∈ P, ∀ j, b0.grid m = some j →
      (b0.heap j).color = player ∨ False :=
    fun m hm j hj => Or.inl (hA.hnoopp m hm j hj)
  have hS_on : ∀ q ∈ mergedStones b0 player point P, b0.isOnGrid q = true := by
    intro q hq
    rcases Finset.mem_insert.mp hq with rfl | hq
    · exact hpton
    · obtain ⟨k, hgk, -, -, -⟩ := exists_of_mem_origStones hinv hq
      exact hinv.hongrid q k hgk
  have hnext0 : b0.next ≤ st.board.next := le_trans hA.hfresh (le_of_lt hA.hnext)
  refine ⟨?_, ?_, ?_, ?_, ?_⟩
  · intro p i hp
    rw [hA.hgrid p] at hp
    rw [hongrid_eq p]
    by_cases hpS : p ∈ mergedStones b0 player point P
    · exact hS_on p hpS
    · rw [if_neg hpS] at hp
      exact hinv.hongrid p i hp
  · intro p i hp
    rw [hA.hgrid p] at hp
    by_cases hpS : p ∈ mergedStones b0 player point P
    · rw [if_pos hpS] at hp
      obtain rfl : curId = i := Option.some_inj.mp hp
      rw [hA.hcur]
      exact hpS
    · rw [if_neg hpS] at hp
      rw [hA.hold i (hinv.hlt p i hp)]
      exact hinv.hmem p i hp
  · intro p i hp q hq
    rw [hA.hgrid p] at hp
    by_cases hpS : p ∈ mergedStones b0 player point P
    · rw [if_pos hpS] at hp
      obtain rfl : curId = i := Option.some_inj.mp hp
      rw [hA.hcur] at hq
      rw [hA.hgrid q, if_pos hq]
    · rw [if_neg hpS] at hp
      rw [hA.hold i (hinv.hlt p i hp)] at hq
      have hgq : b0.grid q = some i := hinv.hcoh p i hp q hq
      rw [hA.hgrid q,
        if_neg (survivor_stones_not_merged hinv hptempty hp hpS q hq), hgq]
  · intro p i hp
    rw [hA.hgrid p] at hp
    by_cases hpS : p ∈ mergedStones b0 player point P
    · rw [if_pos hpS] at hp
      obtain rfl : curId = i := Option.some_inj.mp hp
      exact hA.hnext
    · rw [if_neg hpS] at hp
      exact lt_of_lt_of_le (hinv.hlt p i hp) hnext0
  · intro p i hp q
    rw [hA.hgrid p] at hp
    by_cases hpS : p ∈ mergedStones b0 player point P
    · rw [if_pos hpS] at hp
      obtain rfl : curId = i := Option.some_inj.mp hp
      rw [hA.hcur]
      constructor
      · intro hq
        obtain ⟨hqon, hqnone, hqpt, hxadj⟩ :=
          (mem_mergedLiberties_iff hinv hptempty hPsub hPcov q).mp hq
        refine ⟨by rw [hongrid_eq q]; exact hqon, ?_, hxadj⟩
        rw [hA.hgrid q, if_neg ?_]
        · exact hqnone
        · intro hqS
          rcases Finset.mem_insert.mp hqS with rfl | hqOS
          · exact hqpt rfl
          · obtain ⟨k, hgk, -, -, -⟩ := exists_of_mem_origStones hinv hqOS
            rw [hqnone] at hgk
            cases hgk
      · rintro ⟨hqon, hqnone, hxadj⟩
        apply (mem_mergedLiberties_iff hinv hptempty hPsub hPcov q).mpr
        have hqS : q ∉ mergedStones b0 player point P := by
          intro hqS
          rw [hA.hgrid q, if_pos hqS] at hqnone
          cases hqnone
        have hqnone0 : b0.grid q = none := by
          rw [hA.hgrid q, if_neg hqS] at hqnone
          exact hqnone
        refine ⟨by rw [hongrid_eq q] at hqon; exact hqon, hqnone0, ?_, hxadj⟩
        intro hqq
        exact hqS (hqq ▸ Finset.mem_insert_self point (origStones b0 player P))
    · rw [if_neg hpS] at hp
      rw [hA.hold i (hinv.hlt p i hp)]
      have hnadj := survivor_not_adjacent hinv hptempty hPcov (fun _ => False)
        hnoopp2 hp hpS (fun h => h)
      constructor
      · intro hq
        obtain ⟨hqon, hqnone, s, hs, hsn⟩ := (hinv.hlib p i hp q).mp hq
        refine ⟨by rw [hongrid_eq q]; exact hqon, ?_, s, hs, hsn⟩
        rw [hA.hgrid q, if_neg ?_]
        · exact hqnone
        · intro hqS
          rcases Finset.mem_insert.mp hqS with rfl | hqOS
          · exact absurd (mem_neighbors_symm.mp hsn) (hnadj s hs)
          · obtain ⟨k, hgk, -, -, -⟩ := exists_of_mem_origStones hinv hqOS
            rw [hqnone] at hgk
            cases hgk
      · rintro ⟨hqon, hqnone, s, hs, hsn⟩
        apply (hinv.hlib p i hp q).mpr
        have hqS : q ∉ mergedStones b0 player point P := by
          intro hqS
          rw [hA.hgrid q, if_pos hqS] at hqnone
          cases hqnone
        have hqnone0 : b0.grid q = none := by
          rw [hA.hgrid q, if_neg hqS] at hqnone
          exact hqnone
        exact ⟨by rw [hongrid_eq q] at hqon; exact hqon, hqnone0, s, hs, hsn⟩

/-- Board invariant for the post-opposite-color board when the opposite
string was not captured: the merged string is registered, the opposite string
merely lost the liberty `point`, everything else is unchanged. -/
theorem B_nocapture_boardInv {b0 : Board} {player : Player} {point : Point}
    {P' : List Point} {oppId newId : Nat} {n : Point} {bR : Board}
    (hinv : BoardInv b0) (hpton : b0.isOnGrid point = true)
    (hptempty : b0.grid point = none)
    (hPsub : ∀ m ∈ P', m ∈ point.neighbors)
    (hPcov : ∀ m ∈ point.neighbors, b0.isOnGrid m = true → m ∈ P')
    (hgn0 : b0.grid n = some oppId)
    (hcopp : ¬ (b0.heap oppId).color = player)
    (hnoopp : ∀ m ∈ P', ∀ j, b0.grid m = some j
      → (b0.heap j).color = player ∨ j = oppId)
    (hfreshnew : b0.next ≤ newId)
    (hrowsR : bR.numRows = b0.numRows) (hcolsR : bR.numCols = b0.numCols)
    (hgridR : ∀ q, bR.grid q
      = if q ∈ mergedStones b0 player point P' then some newId else b0.grid q)
    (hheapnew : bR.heap newId = ⟨player, mergedStones b0 player point P',
        mergedLiberties b0 player point P'⟩)
    (hheapopp : bR.heap oppId = ⟨(b0.heap oppId).color, (b0.heap oppId).stones,
        (b0.heap oppId).liberties.erase point⟩)
    (hheapold : ∀ i, i < b0.next → i ≠ oppId → bR.heap i = b0.heap i)
    (hnextR : newId < bR.next) :
    BoardInv bR := by
  have hongrid_eq : ∀ q, bR.isOnGrid q = b0.isOnGrid q :=
    isOnGrid_eq_of_dims hrowsR hcolsR
  have hoppfresh0 : oppId < b0.next := hinv.hlt n oppId hgn0
  have hoppnew : oppId ≠ newId := Nat.ne_of_lt (lt_of_lt_of_le hoppfresh0 hfreshnew)
  have hnS : n ∉ mergedStones b0 player point P' := by
    intro h
    rcases Finset.mem_insert.mp h with rfl | hOS
    · rw [hgn0] at hptempty
      cases hptempty
    · obtain ⟨k, hgk, hck, -, -⟩ := exists_of_mem_origStones hinv hOS
      rw [hgn0] at hgk
      rw [← Option.some_inj.mp hgk] at hck
      exact hcopp hck
  have hsopp_notS := survivor_stones_not_merged hinv hptempty hgn0 hnS
  have hS_on : ∀ q ∈ mergedStones b0 player point P', b0.isOnGrid q = true := by
    intro q hq
    rcases Finset.mem_insert.mp hq with rfl | hq
    · exact hpton
    · obtain ⟨k, hgk, -, -, -⟩ := exists_of_mem_origStones hinv hq
      exact hinv.hongrid q k hgk
  have hnext0 : b0.next ≤ bR.next :=
    le_trans hfreshnew (le_of_lt hnextR)
  refine ⟨?_, ?_, ?_, ?_, ?_⟩
  · intro p i hp
    rw [hgridR p] at hp
    rw [hongrid_eq p]
    by_cases hpS : p ∈ mergedStones b0 player point P'
    · exact hS_on p hpS
    · rw [if_neg hpS] at hp
      exact hinv.hongrid p i hp
  · intro p i hp
    rw [hgridR p] at hp
    by_cases hpS : p ∈ mergedStones b0 player point P'
    · rw [if_pos hpS] at hp
      obtain rfl : newId = i := Option.some_inj.mp hp
      rw [hheapnew]
      exact hpS
    · rw [if_neg hpS] at hp
      by_cases hio : i = oppId
      · rw [hio, hheapopp]
        rw [hio] at hp
        exact hinv.hmem p oppId hp
      · rw [hheapold i (hinv.hlt p i hp) hio]
        exact hinv.hmem p i hp
  · intro p i hp q hq
    rw [hgridR p] at hp
    by_cases hpS : p ∈ mergedStones b0 player point P'
    · rw [if_pos hpS] at hp
      obtain rfl : newId = i := Option.some_inj.mp hp
      rw [hheapnew] at hq
      rw [hgridR q, if_pos hq]
    · rw [if_neg hpS] at hp
      by_cases hio : i = oppId
      · subst hio
        rw [hheapopp] at hq
        have hgq : b0.grid q = some i := hinv.hcoh p i hp q hq
        rw [hgridR q, if_neg (hsopp_notS q hq), hgq]
      · rw [hheapold i (hinv.hlt p i hp) hio] at hq
        have hgq : b0.grid q = some i := hinv.hcoh p i hp q hq
        rw [hgridR q,
          if_neg (survivor_stones_not_merged hinv hptempty hp hpS q hq), hgq]
  · intro p i hp
    rw [hgridR p] at hp
    by_cases hpS : p ∈ mergedStones b0 player point P'
    · rw [if_pos hpS] at hp
      obtain rfl : newId = i := Option.some_inj.mp hp
      exact hnextR
    · rw [if_neg hpS] at hp
      exact lt_of_lt_of_le (hinv.hlt p i hp) hnext0
  · intro p i hp q
    rw [hgridR p] at hp
    by_cases hpS : p ∈ mergedStones b0 player point P'
    · rw [if_pos hpS] at hp
      obtain rfl : newId = i := Option.some_inj.mp hp
      rw [hheapnew]
      constructor
      · intro hq
        obtain ⟨hqon, hqnone, hqpt, hxadj⟩ :=
          (mem_mergedLiberties_iff hinv hptempty hPsub hPcov q).mp hq
        refine ⟨by rw [hongrid_eq q]; exact hqon, ?_, hxadj⟩
        rw [hgridR q, if_neg ?_]
        · exact hqnone
        · intro hqS
          rcases Finset.mem_insert.mp hqS with rfl | hqOS
          · exact hqpt rfl
          · obtain ⟨k, hgk, -, -, -⟩ := exists_of_mem_origStones hinv hqOS
            rw [hqnone] at hgk
            cases hgk
      · rintro ⟨hqon, hqnone, hxadj⟩
        apply (mem_mergedLiberties_iff hinv hptempty hPsub hPcov q).mpr
        have hqS : q ∉ mergedStones b0 player point P' := by
          intro hqS
          rw [hgridR q, if_pos hqS] at hqnone
          cases hqnone
        have hqnone0 : b0.grid q = none := by
          rw [hgridR q, if_neg hqS] at hqnone
          exact hqnone
        refine ⟨by rw [hongrid_eq q] at hqon; exact hqon, hqnone0, ?_, hxadj⟩
        intro hqq
        exact hqS (hqq ▸ Finset.mem_insert_self point (origStones b0 player P'))
    · rw [if_neg hpS] at hp
      by_cases hio : i = oppId
      · subst hio
        rw [hheapopp]
        constructor
        · intro hq
          have hqpt : q ≠ point := Finset.ne_of_mem_erase hq
          have hql : q ∈ (b0.heap i).liberties := Finset.mem_of_mem_erase hq
          obtain ⟨hqon, hqnone, s, hs, hsn⟩ := (hinv.hlib p i hp q).mp hql
          refine ⟨by rw [hongrid_eq q]; exact hqon, ?_, s, hs, hsn⟩
          rw [hgridR q, if_neg ?_]
          · exact hqnone
          · intro hqS
            rcases Finset.mem_insert.mp hqS with rfl | hqOS
            · exact hqpt rfl
            · obtain ⟨k, hgk, -, -, -⟩ := exists_of_mem_origStones hinv hqOS
              rw [hqnone] at hgk
              cases hgk
        · rintro ⟨hqon, hqnone, s, hs, hsn⟩
          have hqS : q ∉ mergedStones b0 player point P' := by
            intro hqS
            rw [hgridR q, if_pos hqS] at hqnone
            cases hqnone
          have hqnone0 : b0.grid q = none := by
            rw [hgridR q, if_neg hqS] at hqnone
            exact hqnone
          refine Finset.mem_erase.mpr ⟨?_, ?_⟩
          · intro hqq
            exact hqS (hqq ▸ Finset.mem_insert_self point (origStones b0 player P'))
          · exact (hinv.hlib p i hp q).mpr
              ⟨by rw [hongrid_eq q] at hqon; exact hqon, hqnone0, s, hs, hsn⟩
      · rw [hheapold i (hinv.hlt p i hp) hio]
        have hnadj := survivor_not_adjacent hinv hptempty hPcov (· = oppId)
          hnoopp hp hpS hio
        constructor
        · intro hq
          obtain ⟨hqon, hqnone, s, hs, hsn⟩ := (hinv.hlib p i hp q).mp hq
          refine ⟨by rw [hongrid_eq q]; exact hqon, ?_, s, hs, hsn⟩
          rw [hgridR q, if_neg ?_]
          · exact hqnone
          · intro hqS
            rcases Finset.mem_insert.mp hqS with rfl | hqOS
            · exact absurd (mem_neighbors_symm.mp hsn) (hnadj s hs)
            · obtain ⟨k, hgk, -, -, -⟩ := exists_of_mem_origStones hinv hqOS
              rw [hqnone] at hgk
              cases hgk
        · rintro ⟨hqon, hqnone, s, hs, hsn⟩
          have hqS : q ∉ mergedStones b0 player point P' := by
            intro hqS
            rw [hgridR q, if_pos hqS] at hqnone
            cases hqnone
          have hqnone0 : b0.grid q = none := by
            rw [hgridR q, if_neg hqS] at hqnone
            exact hqnone
          exact (hinv.hlib p i hp q).mpr
            ⟨by rw [hongrid_eq q] at hqon; exact hqon, hqnone0, s, hs, hsn⟩

/-- Board invariant for the post-opposite-color board when the opposite
string was captured: its stones are vacated, the merged string and every
surviving string adjacent to a vacated stone gain those points as
liberties. -/
theorem B_capture_boardInv {b0 : Board} {player : Player} {point : Point}
    {P' : List Point} {oppId newId : Nat} {n : Point} {bR : Board}
    (hinv : BoardInv b0) (hpton : b0.isOnGrid point = true)
    (hptempty : b0.grid point = none)
    (hPsub : ∀ m ∈ P', m ∈ point.neighbors)
    (hPcov : ∀ m ∈ point.neighbors, b0.isOnGrid m = true → m ∈ P')
    (hgn0 : b0.grid n = some oppId)
    (hcopp : ¬ (b0.heap oppId).color = player)
    (hnoopp : ∀ m ∈ P', ∀ j, b0.grid m = some j
      → (b0.heap j).color = player ∨ j = oppId)
    (hfreshnew : b0.next ≤ newId)
    (hrowsR : bR.numRows = b0.numRows) (hcolsR : bR.numCols = b0.numCols)
    (hgridR : ∀ q, bR.grid q
      = if q ∈ (b0.heap oppId).stones then none
        else if q ∈ mergedStones b0 player point P' then some newId
        else b0.grid q)
    (hheapnew : bR.heap newId = ⟨player, mergedStones b0 player point P',
        mergedLiberties b0 player point P'
          ∪ (b0.heap oppId).stones.filter
            (fun x => ∃ m ∈ x.neighbors, m ∈ mergedStones b0 player point P')⟩)
    (hheapold : ∀ i p, b0.grid p = some i →
      p ∉ mergedStones b0 player point P' → i ≠ oppId →
      bR.heap i = ⟨(b0.heap i).color, (b0.heap i).stones,
        (b0.heap i).liberties ∪ (b0.heap oppId).stones.filter
          (fun x => ∃ m ∈ x.neighbors, b0.grid m = some i)⟩)
    (hnextR : newId < bR.next) :
    BoardInv bR := by
  have hongrid_eq : ∀ q, bR.isOnGrid q = b0.isOnGrid q :=
    isOnGrid_eq_of_dims hrowsR hcolsR
  have hoppfresh0 : oppId < b0.next := hinv.hlt n oppId hgn0
  have hoppnew : oppId ≠ newId := Nat.ne_of_lt (lt_of_lt_of_le hoppfresh0 hfreshnew)
  have hnS : n ∉ mergedStones b0 player point P' := by
    intro h
    rcases Finset.mem_insert.mp h with rfl | hOS
    · rw [hgn0] at hptempty
      cases hptempty
    · obtain ⟨k, hgk, hck, -, -⟩ := exists_of_mem_origStones hinv hOS
      rw [hgn0] at hgk
      rw [← Option.some_inj.mp hgk] at hck
      exact hcopp hck
  have hsopp_notS := survivor_stones_not_merged hinv hptempty hgn0 hnS
  have hsopp_grid : ∀ x ∈ (b0.heap oppId).stones, b0.grid x = some oppId :=
    fun x hx => hinv.hcoh n oppId hgn0 x hx
  have hsopp_of_grid : ∀ x, b0.grid x = some oppId → x ∈ (b0.heap oppId).stones :=
    fun x hx => hinv.hmem x oppId hx
  have hS_on : ∀ q ∈ mergedStones b0 player point P', b0.isOnGrid q = true := by
    intro q hq
    rcases Finset.mem_insert.mp hq with rfl | hq
    · exact hpton
    · obtain ⟨k, hgk, -, -, -⟩ := exists_of_mem_origStones hinv hq
      exact hinv.hongrid q k hgk
  have hnext0 : b0.next ≤ bR.next := le_trans hfreshnew (le_of_lt hnextR)
  -- no point of the merged string is a captured stone
  have hS_not_sopp : ∀ q ∈ mergedStones b0 player point P',
      q ∉ (b0.heap oppId).stones := fun q hq hq2 => hsopp_notS q hq2 hq
  -- an id mapped by the new grid outside the merged string is an old live id
  -- different from the captured one
  have hold_case : ∀ p i, bR.grid p = some i →
      p ∉ (b0.heap oppId).stones → p ∉ mergedStones b0 player point P' →
      b0.grid p = some i ∧ i ≠ oppId ∧ i < b0.next := by
    intro p i hp hps hpS
    rw [hgridR p, if_neg hps, if_neg hpS] at hp
    refine ⟨hp, ?_, hinv.hlt p i hp⟩
    rintro rfl
    exact hps (hsopp_of_grid p hp)
  refine ⟨?_, ?_, ?_, ?_, ?_⟩
  · intro p i hp
    rw [hongrid_eq p]
    rw [hgridR p] at hp
    by_cases hps : p ∈ (b0.heap oppId).stones
    · rw [if_pos hps] at hp
      cases hp
    · rw [if_neg hps] at hp
      by_cases hpS : p ∈ mergedStones b0 player point P'
      · exact hS_on p hpS
      · rw [if_neg hpS] at hp
        exact hinv.hongrid p i hp
  · intro p i hp
    by_cases hps : p ∈ (b0.heap oppId).stones
    · rw [hgridR p, if_pos hps] at hp
      cases hp
    · by_cases hpS : p ∈ mergedStones b0 player point P'
      · have : bR.grid p = some newId := by
          rw [hgridR p, if_neg hps, if_pos hpS]
        rw [this] at hp
        obtain rfl : newId = i := Option.some_inj.mp hp
        rw [hheapnew]
        exact hpS
      · obtain ⟨hp0, hio, hlt0⟩ := hold_case p i hp hps hpS
        rw [hheapold i p hp0 hpS hio]
        exact hinv.hmem p i hp0
  · intro p i hp q hq
    by_cases hps : p ∈ (b0.heap oppId).stones
    · rw [hgridR p, if_pos hps] at hp
      cases hp
    · by_cases hpS : p ∈ mergedStones b0 player point P'
      · have hpn : bR.grid p = some newId := by
          rw [hgridR p, if_neg hps, if_pos hpS]
        rw [hpn] at hp
        obtain rfl : newId = i := Option.some_inj.mp hp
        rw [hheapnew] at hq
        rw [hgridR q, if_neg (hS_not_sopp q hq), if_pos hq]
      · obtain ⟨hp0, hio, hlt0⟩ := hold_case p i hp hps hpS
        rw [hheapold i p hp0 hpS hio] at hq
        have hgq : b0.grid q = some i := hinv.hcoh p i hp0 q hq
        have hqsopp : q ∉ (b0.heap oppId).stones := by
          intro hq2
          rw [hsopp_grid q hq2] at hgq
          exact hio (Option.some_inj.mp hgq).symm
        rw [hgridR q, if_neg hqsopp,
          if_neg (survivor_stones_not_merged hinv hptempty hp0 hpS q hq), hgq]
  · intro p i hp
    by_cases hps : p ∈ (b0.heap oppId).stones
    · rw [hgridR p, if_pos hps] at hp
      cases hp
    · by_cases hpS : p ∈ mergedStones b0 player point P'
      · have hpn : bR.grid p = some newId := by
          rw [hgridR p, if_neg hps, if_pos hpS]
        rw [hpn] at hp
        obtain rfl : newId = i := Option.some_inj.mp hp
        exact hnextR
      · obtain ⟨hp0, -, hlt0⟩ := hold_case p i hp hps hpS
        exact lt_of_lt_of_le hlt0 hnext0
  · intro p i hp q
    by_cases hps : p ∈ (b0.heap oppId).stones
    · rw [hgridR p, if_pos hps] at hp
      cases hp
    · by_cases hpS : p ∈ mergedStones b0 player point P'
      · have hpn : bR.grid p = some newId := by
          rw [hgridR p, if_neg hps, if_pos hpS]
        rw [hpn] at hp
        obtain rfl : newId = i := Option.some_inj.mp hp
        rw [hheapnew]
        constructor
        · intro hq
          rcases Finset.mem_union.mp hq with hqL | hqA
          · obtain ⟨hqon, hqnone, hqpt, hxadj⟩ :=
              (mem_mergedLiberties_iff hinv hptempty hPsub hPcov q).mp hqL
            have hqsopp : q ∉ (b0.heap oppId).stones := by
              intro hq2
              rw [hsopp_grid q hq2] at hqnone
              cases hqnone
            have hqS : q ∉ mergedStones b0 player point P' := by
              intro hqS
              rcases Finset.mem_insert.mp hqS with rfl | hqOS
              · exact hqpt rfl
              · obtain ⟨k, hgk, -, -, -⟩ := exists_of_mem_origStones hinv hqOS
                rw [hqnone] at hgk
                cases hgk
            refine ⟨by rw [hongrid_eq q]; exact hqon, ?_, hxadj⟩
            rw [hgridR q, if_neg hqsopp, if_neg hqS]
            exact hqnone
          · obtain ⟨hqsopp, m, hmn, hmS⟩ := Finset.mem_filter.mp hqA
            refine ⟨?_, ?_, m, hmS, mem_neighbors_symm.mp hmn⟩
            · rw [hongrid_eq q]
              exact hinv.hongrid q oppId (hsopp_grid q hqsopp)
            · rw [hgridR q, if_pos hqsopp]
        · rintro ⟨hqon, hqnone, s, hs, hsn⟩
          by_cases hqsopp : q ∈ (b0.heap oppId).stones
          · refine Finset.mem_union_right _ (Finset.mem_filter.mpr
              ⟨hqsopp, s, mem_neighbors_symm.mp hsn, hs⟩)
          · have hqS : q ∉ mergedStones b0 player point P' := by
              intro hqS
              rw [hgridR q, if_neg hqsopp, if_pos hqS] at hqnone
              cases hqnone
            have hqnone0 : b0.grid q = none := by
              rw [hgridR q, if_neg hqsopp, if_neg hqS] at hqnone
              exact hqnone
            refine Finset.mem_union_left _
              ((mem_mergedLiberties_iff hinv hptempty hPsub hPcov q).mpr
                ⟨by rw [hongrid_eq q] at hqon; exact hqon, hqnone0, ?_, s, hs, hsn⟩)
            intro hqq
            exact hqS (hqq ▸ Finset.mem_insert_self point (origStones b0 player P'))
      · obtain ⟨hp0, hio, hlt0⟩ := hold_case p i hp hps hpS
        rw [hheapold i p hp0 hpS hio]
        have hnadj := survivor_not_adjacent hinv hptempty hPcov (· = oppId)
          hnoopp hp0 hpS hio
        constructor
        · intro hq
          rcases Finset.mem_union.mp hq with hqL | hqA
          · obtain ⟨hqon, hqnone, s, hs, hsn⟩ := (hinv.hlib p i hp0 q).mp hqL
            have hqsopp : q ∉ (b0.heap oppId).stones := by
              intro hq2
              rw [hsopp_grid q hq2] at hqnone
              cases hqnone
            have hqS : q ∉ mergedStones b0 player point P' := by
              intro hqS
              rcases Finset.mem_insert.mp hqS with rfl | hqOS
              · exact absurd (mem_neighbors_symm.mp hsn) (hnadj s hs)
              · obtain ⟨k, hgk, -, -, -⟩ := exists_of_mem_origStones hinv hqOS
                rw [hqnone] at hgk
                cases hgk
            refine ⟨by rw [hongrid_eq q]; exact hqon, ?_, s, hs, hsn⟩
            rw [hgridR q, if_neg hqsopp, if_neg hqS]
            exact hqnone
          · obtain ⟨hqsopp, m, hmn, hmg⟩ := Finset.mem_filter.mp hqA
            refine ⟨?_, ?_, m, hinv.hmem m i hmg, mem_neighbors_symm.mp hmn⟩
            · rw [hongrid_eq q]
              exact hinv.hongrid q oppId (hsopp_grid q hqsopp)
            · rw [hgridR q, if_pos hqsopp]
        · rintro ⟨hqon, hqnone, s, hs, hsn⟩
          by_cases hqsopp : q ∈ (b0.heap oppId).stones
          · exact Finset.mem_union_right _ (Finset.mem_filter.mpr
              ⟨hqsopp, s, mem_neighbors_symm.mp hsn, hinv.hcoh p i hp0 s hs⟩)
          · have hqS : q ∉ mergedStones b0 player point P' := by
              intro hqS
              rw [hgridR q, if_neg hqsopp, if_pos hqS] at hqnone
              cases hqnone
            have hqnone0 : b0.grid q = none := by
              rw [hgridR q, if_neg hqsopp, if_neg hqS] at hqnone
              exact hqnone
            exact Finset.mem_union_left _ ((hinv.hlib p i hp0 q).mpr
              ⟨by rw [hongrid_eq q] at hqon; exact hqon, hqnone0, s, hs, hsn⟩)

theorem removeLibertiesLoop_nil (point : Point) (b : Board) :
    removeLibertiesLoop point [] b = .ok b := rfl

theorem removeLibertiesLoop_cons_error {point : Point} {i : Nat} {rest : List Nat}
    {b : Board} (h : point ∉ (b.heap i).liberties) :
    removeLibertiesLoop point (i :: rest) b = .error (.keyError, b) := by
  have hrl : (b.heap i).removeLiberty point = .error .keyError := by
    unfold GoString.removeLiberty
    rw [if_neg h]
  show (match (b.heap i).removeLiberty point with
        | .ok g => removeLibertiesLoop point rest (b.setHeap i g)
        | .error e => .error (e, b)) = _
  rw [hrl]

theorem removeLibertiesLoop_cons_ok {point : Point} {i : Nat} {rest : List Nat}
    {b : Board} (h : point ∈ (b.heap i).liberties) :
    removeLibertiesLoop point (i :: rest) b
      = removeLibertiesLoop point rest
          (b.setHeap i ⟨(b.heap i).color, (b.heap i).stones,
            (b.heap i).liberties.erase point⟩) := by
  have hrl : (b.heap i).removeLiberty point
      = .ok ⟨(b.heap i).color, (b.heap i).stones,
          (b.heap i).liberties.erase point⟩ := by
    unfold GoString.removeLiberty
    rw [if_pos h]
  show (match (b.heap i).removeLiberty point with
        | .ok g => removeLibertiesLoop point rest (b.setHeap i g)
        | .error e => .error (e, b)) = _
  rw [hrl]

theorem captureLoop_nil (b : Board) : captureLoop [] b = b := rfl

theorem captureLoop_singleton (i : Nat) (b : Board) :
    captureLoop [i] b
      = if (b.heap i).numLiberties = 0 then b.removeString i else b := rfl

theorem grid_none_of_offgrid {b0 : Board} (hinv : BoardInv b0) {m : Point}
    (h : b0.isOnGrid m = false) : b0.grid m = none := by
  cases hg : b0.grid m with
  | none => rfl
  | some i =>
    rw [hinv.hongrid m i hg] at h
    cases h

theorem emptiesOf_of_offgrid {b0 : Board} {P : List Point}
    (hP : ∀ m ∈ P, b0.isOnGrid m = false) : emptiesOf b0 P = ∅ := by
  ext q
  simp only [mem_emptiesOf, Finset.not_mem_empty, iff_false]
  rintro ⟨hq, hon, -⟩
  rw [hP q hq] at hon
  cases hon

theorem origStones_of_offgrid {b0 : Board} {player : Player} {P : List Point}
    (hinv : BoardInv b0) (hP : ∀ m ∈ P, b0.isOnGrid m = false) :
    origStones b0 player P = ∅ := by
  ext q
  simp only [origStones, Finset.mem_biUnion, List.mem_toFinset,
    Finset.not_mem_empty, iff_false]
  rintro ⟨m, hm, hq⟩
  rw [origEntryStones_of_none (grid_none_of_offgrid hinv (hP m hm))] at hq
  exact absurd hq (Finset.not_mem_empty q)

theorem origLibs_of_offgrid {b0 : Board} {player : Player} {P : List Point}
    (hinv : BoardInv b0) (hP : ∀ m ∈ P, b0.isOnGrid m = false) :
    origLibs b0 player P = ∅ := by
  ext q
  simp only [origLibs, Finset.mem_biUnion, List.mem_toFinset,
    Finset.not_mem_empty, iff_false]
  rintro ⟨m, hm, hq⟩
  rw [origEntryLibs_of_none (grid_none_of_offgrid hinv (hP m hm))] at hq
  exact absurd hq (Finset.not_mem_empty q)

theorem foldr_union_init (f : Nat → Finset Point) (l : List Nat) (X : Finset Point) :
    l.foldr (fun j acc => f j ∪ acc) X = l.foldr (fun j acc => f j ∪ acc) ∅ ∪ X := by
  induction l with
  | nil => simp
  | cons j t ih => simp only [List.foldr_cons, ih, Finset.union_assoc]

theorem unionStones_append (b : Board) (l : List Nat) (i : Nat) :
    unionStones b (l ++ [i]) = unionStones b l ∪ (b.heap i).stones := by
  unfold unionStones
  rw [List.foldr_append, List.foldr_cons, List.foldr_nil, Finset.union_empty,
    foldr_union_init]

theorem unionLibs_append (b : Board) (l : List Nat) (i : Nat) :
    unionLibs b (l ++ [i]) = unionLibs b l ∪ (b.heap i).liberties := by
  unfold unionLibs
  rw [List.foldr_append, List.foldr_cons, List.foldr_nil, Finset.union_empty,
    foldr_union_init]

theorem unionStones_congr {b1 b2 : Board} (l : List Nat)
    (h : ∀ j ∈ l, b1.heap j = b2.heap j) : unionStones b1 l = unionStones b2 l := by
  unfold unionStones
  induction l with
  | nil => rfl
  | cons j t ih =>
    simp only [List.foldr_cons]
    rw [h j (List.mem_cons_self j t), ih (fun x hx => h x (List.mem_cons_of_mem j hx))]

theorem unionLibs_congr {b1 b2 : Board} (l : List Nat)
    (h : ∀ j ∈ l, b1.heap j = b2.heap j) : unionLibs b1 l = unionLibs b2 l := by
  unfold unionLibs
  induction l with
  | nil => rfl
  | cons j t ih =>
    simp only [List.foldr_cons]
    rw [h j (List.mem_cons_self j t), ih (fun x hx => h x (List.mem_cons_of_mem j hx))]

/-- Evaluation of the loop body when the neighbor is off-grid: `continue`. -/
theorem psBody_eval_offgrid {player : Player} {point : Point} {st : PSState}
    {n : Point} (h : st.board.isOnGrid n = false) :
    psBody player point st n = .ok st := by
  unfold psBody
  rw [if_pos h]

/-- Evaluation of the loop body on an on-grid empty neighbor. -/
theorem psBody_eval_empty {player : Player} {point : Point} {st : PSState}
    {n : Point} (hon : st.board.isOnGrid n = true)
    (hgn : st.board.grid n = none) :
    psBody player point st n =
      match removeLibertiesLoop point st.opp
          ⟨st.board.numRows, st.board.numCols,
            fun q => if q ∈ ((st.same.foldl
                (fun acc j => acc.mergedValue (st.board.heap j))
                ⟨player, {point}, (st.libs ++ [n]).toFinset⟩ : GoString)).stones
              then some st.board.next else st.board.grid q,
            fun j => if j = st.board.next
              then st.same.foldl
                (fun acc j => acc.mergedValue (st.board.heap j))
                ⟨player, {point}, (st.libs ++ [n]).toFinset⟩
              else st.board.heap j,
            st.board.next + 1⟩ with
      | .error (e, b3) => .error (e, b3)
      | .ok b3 => .ok ⟨captureLoop st.opp b3, st.same, st.opp, st.libs ++ [n]⟩ := by
  unfold psBody
  rw [if_neg (by rw [hon]; simp)]
  simp only [hgn]
  rfl

/-- Evaluation of the loop body on a same-color neighbor whose string
compares equal to a listed one (dedup skips it). -/
theorem psBody_eval_same_skip {player : Player} {point : Point} {st : PSState}
    {n : Point} {i : Nat} (hon : st.board.isOnGrid n = true)
    (hgn : st.board.grid n = some i)
    (hc : (st.board.heap i).color = player)
    (hdup : st.same.any (fun j => st.board.heap j = st.board.heap i) = true) :
    psBody player point st n =
      match removeLibertiesLoop point st.opp
          ⟨st.board.numRows, st.board.numCols,
            fun q => if q ∈ ((st.same.foldl
                (fun acc j => acc.mergedValue (st.board.heap j))
                ⟨player, {point}, st.libs.toFinset⟩ : GoString)).stones
              then some st.board.next else st.board.grid q,
            fun j => if j = st.board.next
              then st.same.foldl
                (fun acc j => acc.mergedValue (st.board.heap j))
                ⟨player, {point}, st.libs.toFinset⟩
              else st.board.heap j,
            st.board.next + 1⟩ with
      | .error (e, b3) => .error (e, b3)
      | .ok b3 => .ok ⟨captureLoop st.opp b3, st.same, st.opp, st.libs⟩ := by
  unfold psBody
  rw [if_neg (by rw [hon]; simp)]
  simp only [hgn, hc, hdup, if_true, if_pos]
  rfl

/-- Evaluation of the loop body on a same-color neighbor not yet listed
(dedup appends it). -/
theorem psBody_eval_same_append {player : Player} {point : Point} {st : PSState}
    {n : Point} {i : Nat} (hon : st.board.isOnGrid n = true)
    (hgn : st.board.grid n = some i)
    (hc : (st.board.heap i).color = player)
    (hdup : st.same.any (fun j => st.board.heap j = st.board.heap i) = false) :
    psBody player point st n =
      match removeLibertiesLoop point st.opp
          ⟨st.board.numRows, st.board.numCols,
            fun q => if q ∈ (((st.same ++ [i]).foldl
                (fun acc j => acc.mergedValue (st.board.heap j))
                ⟨player, {point}, st.libs.toFinset⟩ : GoString)).stones
              then some st.board.next else st.board.grid q,
            fun j => if j = st.board.next
              then (st.same ++ [i]).foldl
                (fun acc j => acc.mergedValue (st.board.heap j))
                ⟨player, {point}, st.libs.toFinset⟩
              else st.board.heap j,
            st.board.next + 1⟩ with
      | .error (e, b3) => .error (e, b3)
      | .ok b3 => .ok ⟨captureLoop st.opp b3, (st.same ++ [i]), st.opp, st.libs⟩ := by
  unfold psBody
  rw [if_neg (by rw [hon]; simp)]
  simp only [hgn, hc, hdup, if_true, if_pos]
  rfl

/-- Evaluation of the loop body on an opposite-color neighbor: the string is
appended to the opposite list unconditionally (the source's membership test
compares a color against strings and never matches). -/
theorem psBody_eval_opp {player : Player} {point : Point} {st : PSState}
    {n : Point} {i : Nat} (hon : st.board.isOnGrid n = true)
    (hgn : st.board.grid n = some i)
    (hc : ¬ (st.board.heap i).color = player) :
    psBody player point st n =
      match removeLibertiesLoop point (st.opp ++ [i])
          ⟨st.board.numRows, st.board.numCols,
            fun q => if q ∈ ((st.same.foldl
                (fun acc j => acc.mergedValue (st.board.heap j))
                ⟨player, {point}, st.libs.toFinset⟩ : GoString)).stones
              then some st.board.next else st.board.grid q,
            fun j => if j = st.board.next
              then st.same.foldl
                (fun acc j => acc.mergedValue (st.board.heap j))
                ⟨player, {point}, st.libs.toFinset⟩
              else st.board.heap j,
            st.board.next + 1⟩ with
      | .error (e, b3) => .error (e, b3)
      | .ok b3 => .ok ⟨captureLoop (st.opp ++ [i]) b3, st.same, (st.opp ++ [i]), st.libs⟩ := by
  unfold psBody
  rw [if_neg (by rw [hon]; simp)]
  simp only [hgn, hc, if_false]
  rfl

/-- A phase-B state survives an off-grid neighbor unchanged, and makes the
body raise `KeyError` on any on-grid neighbor: the re-run removal loop hits
the listed opposite string, whose liberty for `point` is already gone. -/
theorem loopInv_stepB {b0 : Board} {player : Player} {point : Point}
    {P : List Point} {st : PSState} {oppId : Nat} {n : Point}
    (hB : InvB b0 player point P st oppId) :
    (∃ e b', psBody player point st n = .error (e, b'))
    ∨ (psBody player point st n = .ok st
        ∧ InvB b0 player point (P ++ [n]) st oppId) := by
  by_cases hon : st.board.isOnGrid n = true
  · left
    have hne : oppId ≠ st.board.next := Nat.ne_of_lt hB.hoppfresh
    have hkey : ∀ g : GoString,
        point ∉ (if oppId = st.board.next then g else st.board.heap oppId).liberties := by
      intro g
      rw [if_neg hne]
      exact hB.hnolib
    rcases hgn : st.board.grid n with _ | i
    · have heq := @psBody_eval_empty player point st n hon hgn
      rw [hB.hopp, removeLibertiesLoop_cons_error (hkey _)] at heq
      exact ⟨_, _, heq⟩
    · by_cases hc : (st.board.heap i).color = player
      · cases hdup : st.same.any (fun j => st.board.heap j = st.board.heap i) with
        | true =>
          have heq := @psBody_eval_same_skip player point st n i hon hgn hc hdup
          rw [hB.hopp, removeLibertiesLoop_cons_error (hkey _)] at heq
          exact ⟨_, _, heq⟩
        | false =>
          have heq := @psBody_eval_same_append player point st n i hon hgn hc hdup
          rw [hB.hopp, removeLibertiesLoop_cons_error (hkey _)] at heq
          exact ⟨_, _, heq⟩
      · have heq := @psBody_eval_opp player point st n i hon hgn hc
        rw [hB.hopp] at heq
        rw [show (([oppId] : List Nat) ++ [i]) = oppId :: [i] from rfl] at heq
        rw [removeLibertiesLoop_cons_error (hkey _)] at heq
        exact ⟨_, _, heq⟩
  · right
    have hoff : st.board.isOnGrid n = false := by
      cases hb : st.board.isOnGrid n
      · rfl
      · exact absurd hb hon
    refine ⟨psBody_eval_offgrid hoff, ?_⟩
    have hoff0 : b0.isOnGrid n = false := by
      rw [← isOnGrid_eq_of_dims hB.hrows hB.hcols n]
      exact hoff
    exact ⟨hB.hopp, hB.hoppfresh, hB.hnolib, hB.hrows, hB.hcols, fun hprem =>
      hB.hfinal (fun m hm hmP => by
        by_cases hmn : m = n
        · rw [hmn]
          exact hoff0
        · exact hprem m hm (by
            intro hmem
            rcases List.mem_append.mp hmem with h | h
            · exact hmP h
            · exact hmn (List.mem_singleton.mp h)))⟩

/-- Processing the single opposite-color string `i`: the removal loop erases
`point` from its liberties, the capture check removes it iff no liberty
remains, and the resulting state satisfies the phase-B invariant.  The
registered board `b` is characterized abstractly by the `h*` hypotheses so the
lemma serves both the first body iteration and the phase-A transition. -/
theorem oppStep_phaseB {b0 b : Board} {player : Player} {point : Point}
    {P' : List Point} {n : Point} {i newId : Nat}
    {same : List Nat} {libs : List Point}
    {X : Except (Err × Board) PSState}
    (hmatch : X = match removeLibertiesLoop point [i] b with
      | .error (e, b3) => .error (e, b3)
      | .ok b3 => .ok ⟨captureLoop [i] b3, same, [i], libs⟩)
    (hinv : BoardInv b0) (hpton : b0.isOnGrid point = true)
    (hptempty : b0.grid point = none)
    (hmemn : n ∈ point.neighbors)
    (hPsub : ∀ m ∈ P', m ∈ point.neighbors)
    (hgn : b0.grid n = some i)
    (hc : ¬ (b0.heap i).color = player)
    (hnoopp : ∀ m ∈ P', ∀ j, b0.grid m = some j
      → (b0.heap j).color = player ∨ j = i)
    (hfreshnew : b0.next ≤ newId)
    (hrows : b.numRows = b0.numRows) (hcols : b.numCols = b0.numCols)
    (hgrid : ∀ q, b.grid q
      = if q ∈ mergedStones b0 player point P' then some newId else b0.grid q)
    (hcur : b.heap newId = ⟨player, mergedStones b0 player point P',
        mergedLiberties b0 player point P'⟩)
    (hold : ∀ j, j < b0.next → b.heap j = b0.heap j)
    (hnextb : newId < b.next) :
    ∃ stF, X = .ok stF ∧ InvB b0 player point P' stF i := by
  have hifresh : i < b0.next := hinv.hlt n i hgn
  have hine : i ≠ newId := Nat.ne_of_lt (lt_of_lt_of_le hifresh hfreshnew)
  have hbi : b.heap i = b0.heap i := hold i hifresh
  have hpt : point ∈ (b.heap i).liberties := by
    rw [hbi]
    exact (hinv.hlib n i hgn point).mpr
      ⟨hpton, hptempty, n, hinv.hmem n i hgn, mem_neighbors_symm.mp hmemn⟩
  have hnS : n ∉ mergedStones b0 player point P' := by
    intro h
    rcases Finset.mem_insert.mp h with rfl | hOS
    · rw [hgn] at hptempty
      cases hptempty
    · obtain ⟨k, hgk, hck, -, -⟩ := exists_of_mem_origStones hinv hOS
      rw [hgn] at hgk
      rw [← Option.some_inj.mp hgk] at hck
      exact hc hck
  have hsh : (b.setHeap i ⟨(b.heap i).color, (b.heap i).stones,
      (b.heap i).liberties.erase point⟩).heap i
      = ⟨(b0.heap i).color, (b0.heap i).stones,
          (b0.heap i).liberties.erase point⟩ := by
    show (if i = i then (⟨(b.heap i).color, (b.heap i).stones,
      (b.heap i).liberties.erase point⟩ : GoString) else b.heap i) = _
    rw [if_pos rfl, hbi]
  have hgrid2 : ∀ q, (b.setHeap i ⟨(b.heap i).color, (b.heap i).stones,
      (b.heap i).liberties.erase point⟩).grid q
      = if q ∈ mergedStones b0 player point P' then some newId else b0.grid q :=
    fun q => hgrid q
  have hPcovOf : (∀ m ∈ point.neighbors, m ∉ P' → b0.isOnGrid m = false)
      → ∀ m ∈ point.neighbors, b0.isOnGrid m = true → m ∈ P' := by
    intro hprem m hm hon2
    by_contra hmP
    rw [hprem m hm hmP] at hon2
    cases hon2
  by_cases hcap : ((b0.heap i).liberties.erase point).card = 0
  · -- the string had `point` as its only liberty: it is captured
    have hcoh2 : ∀ q ∈ ((b.setHeap i ⟨(b.heap i).color, (b.heap i).stones,
        (b.heap i).liberties.erase point⟩).heap i).stones,
        (b.setHeap i ⟨(b.heap i).color, (b.heap i).stones,
          (b.heap i).liberties.erase point⟩).grid q = some i := by
      rw [hsh]
      intro q hq
      rw [hgrid2 q, if_neg (survivor_stones_not_merged hinv hptempty hgn hnS q hq)]
      exact hinv.hcoh n i hgn q hq
    obtain ⟨r1, r2, r3, r4, r5, r6⟩ := removeString_spec _ i hcoh2
    rw [hsh] at r4 r5 r6
    refine ⟨⟨(b.setHeap i ⟨(b.heap i).color, (b.heap i).stones,
        (b.heap i).liberties.erase point⟩).removeString i, same, [i], libs⟩, ?_, ?_⟩
    · rw [hmatch, removeLibertiesLoop_cons_ok hpt, removeLibertiesLoop_nil]
      show Except.ok (⟨captureLoop [i] (b.setHeap i ⟨(b.heap i).color,
        (b.heap i).stones, (b.heap i).liberties.erase point⟩), same, [i], libs⟩
          : PSState) = _
      have hcap2 : (⟨(b0.heap i).color, (b0.heap i).stones,
          (b0.heap i).liberties.erase point⟩ : GoString).numLiberties = 0 := hcap
      rw [captureLoop_singleton, hsh, if_pos hcap2]
    · refine ⟨rfl, ?_, ?_, ?_, ?_, ?_⟩
      · show i < ((b.setHeap i ⟨(b.heap i).color, (b.heap i).stones,
          (b.heap i).liberties.erase point⟩).removeString i).next
        rw [r3]
        show i < b.next
        exact lt_of_lt_of_le hifresh (le_trans hfreshnew (le_of_lt hnextb))
      · show point ∉ (((b.setHeap i ⟨(b.heap i).color, (b.heap i).stones,
          (b.heap i).liberties.erase point⟩).removeString i).heap i).liberties
        rw [r5]
        exact Finset.not_mem_erase point _
      · show ((b.setHeap i ⟨(b.heap i).color, (b.heap i).stones,
          (b.heap i).liberties.erase point⟩).removeString i).numRows = b0.numRows
        exact r1.trans hrows
      · show ((b.setHeap i ⟨(b.heap i).color, (b.heap i).stones,
          (b.heap i).liberties.erase point⟩).removeString i).numCols = b0.numCols
        exact r2.trans hcols
      · intro hprem
        show BoardInv ((b.setHeap i ⟨(b.heap i).color, (b.heap i).stones,
          (b.heap i).liberties.erase point⟩).removeString i)
        refine B_capture_boardInv hinv hpton hptempty hPsub (hPcovOf hprem) hgn hc
          hnoopp hfreshnew (r1.trans hrows) (r2.trans hcols) ?_ ?_ ?_ ?_
        · intro q
          rw [r4 q, hgrid2 q]
        · have hnewne : newId ≠ i := fun h => hine h.symm
          have hbnew : (b.setHeap i ⟨(b.heap i).color, (b.heap i).stones,
              (b.heap i).liberties.erase point⟩).heap newId
              = ⟨player, mergedStones b0 player point P',
                  mergedLiberties b0 player point P'⟩ := by
            show (if newId = i then (⟨(b.heap i).color, (b.heap i).stones,
              (b.heap i).liberties.erase point⟩ : GoString) else b.heap newId) = _
            rw [if_neg hnewne]
            exact hcur
          rw [r6 newId hnewne, hbnew]
          refine congrArg (fun F => (⟨player, mergedStones b0 player point P',
            mergedLiberties b0 player point P' ∪ F⟩ : GoString)) ?_
          apply Finset.filter_congr
          intro x hx
          constructor
          · rintro ⟨m, hm, hmg⟩
            rw [hgrid2 m] at hmg
            by_cases hmS : m ∈ mergedStones b0 player point P'
            · exact ⟨m, hm, hmS⟩
            · rw [if_neg hmS] at hmg
              exact absurd (hinv.hlt m newId hmg) (not_lt.mpr hfreshnew)
          · rintro ⟨m, hm, hmS⟩
            refine ⟨m, hm, ?_⟩
            rw [hgrid2 m, if_pos hmS]
        · intro j p hpj hpS hji
          have hjfresh : j < b0.next := hinv.hlt p j hpj
          have hbj : (b.setHeap i ⟨(b.heap i).color, (b.heap i).stones,
              (b.heap i).liberties.erase point⟩).heap j = b0.heap j := by
            show (if j = i then (⟨(b.heap i).color, (b.heap i).stones,
              (b.heap i).liberties.erase point⟩ : GoString) else b.heap j) = _
            rw [if_neg hji]
            exact hold j hjfresh
          rw [r6 j hji, hbj]
          refine congrArg (fun F => (⟨(b0.heap j).color, (b0.heap j).stones,
            (b0.heap j).liberties ∪ F⟩ : GoString)) ?_
          apply Finset.filter_congr
          intro x hx
          constructor
          · rintro ⟨m, hm, hmg⟩
            rw [hgrid2 m] at hmg
            by_cases hmS : m ∈ mergedStones b0 player point P'
            · rw [if_pos hmS] at hmg
              obtain rfl : newId = j := Option.some_inj.mp hmg
              exact absurd hjfresh (not_lt.mpr hfreshnew)
            · rw [if_neg hmS] at hmg
              exact ⟨m, hm, hmg⟩
          · rintro ⟨m, hm, hmg⟩
            refine ⟨m, hm, ?_⟩
            rw [hgrid2 m, if_neg ?_]
            · exact hmg
            · intro hmS
              rcases Finset.mem_insert.mp hmS with rfl | hmOS
              · rw [hptempty] at hmg
                cases hmg
              · obtain ⟨k, hgk, hck, hks, -⟩ := exists_of_mem_origStones hinv hmOS
                rw [hmg] at hgk
                obtain rfl : j = k := Option.some_inj.mp hgk
                exact hpS (Finset.mem_insert_of_mem (hks (hinv.hmem p j hpj)))
        · show newId < ((b.setHeap i ⟨(b.heap i).color, (b.heap i).stones,
            (b.heap i).liberties.erase point⟩).removeString i).next
          rw [r3]
          show newId < b.next
          exact hnextb
  · -- some liberty remains: the string merely loses the liberty `point`
    refine ⟨⟨b.setHeap i ⟨(b.heap i).color, (b.heap i).stones,
        (b.heap i).liberties.erase point⟩, same, [i], libs⟩, ?_, ?_⟩
    · rw [hmatch, removeLibertiesLoop_cons_ok hpt, removeLibertiesLoop_nil]
      show Except.ok (⟨captureLoop [i] (b.setHeap i ⟨(b.heap i).color,
        (b.heap i).stones, (b.heap i).liberties.erase point⟩), same, [i], libs⟩
          : PSState) = _
      have hcap2 : ¬ (⟨(b0.heap i).color, (b0.heap i).stones,
          (b0.heap i).liberties.erase point⟩ : GoString).numLiberties = 0 := hcap
      rw [captureLoop_singleton, hsh, if_neg hcap2]
    · refine ⟨rfl, ?_, ?_, ?_, ?_, ?_⟩
      · show i < b.next
        exact lt_of_lt_of_le hifresh (le_trans hfreshnew (le_of_lt hnextb))
      · show point ∉ ((b.setHeap i ⟨(b.heap i).color, (b.heap i).stones,
          (b.heap i).liberties.erase point⟩).heap i).liberties
        rw [hsh]
        exact Finset.not_mem_erase point _
      · show b.numRows = b0.numRows
        exact hrows
      · show b.numCols = b0.numCols
        exact hcols
      · intro hprem
        show BoardInv (b.setHeap i ⟨(b.heap i).color, (b.heap i).stones,
          (b.heap i).liberties.erase point⟩)
        refine B_nocapture_boardInv hinv hpton hptempty hPsub (hPcovOf hprem) hgn hc
          hnoopp hfreshnew hrows hcols hgrid2 ?_ hsh ?_ ?_
        · show (if newId = i then (⟨(b.heap i).color, (b.heap i).stones,
            (b.heap i).liberties.erase point⟩ : GoString) else b.heap newId) = _
          rw [if_neg (fun h => hine h.symm)]
          exact hcur
        · intro j hj hji
          show (if j = i then (⟨(b.heap i).color, (b.heap i).stones,
            (b.heap i).liberties.erase point⟩ : GoString) else b.heap j) = _
          rw [if_neg hji]
          exact hold j hj
        · show newId < b.next
          exact hnextb

/-- Stepping the nobody phase (all processed neighbors off-grid, the loop
state untouched) over one more neighbor: an off-grid neighbor keeps the
phase; an on-grid one runs the first body iteration, reaching phase A (empty
or same-color neighbor) or phase B (opposite-color neighbor). -/
theorem loopInv_stepNobody {b0 : Board} {player : Player} {point : Point}
    {P : List Point} {n : Point}
    (hinv : BoardInv b0) (hpton : b0.isOnGrid point = true)
    (hptempty : b0.grid point = none)
    (hmemn : n ∈ point.neighbors)
    (hPsub : ∀ m ∈ P, m ∈ point.neighbors)
    (hP : ∀ m ∈ P, b0.isOnGrid m = false) :
    ∃ st1, psBody player point ⟨b0, [], [], []⟩ n = .ok st1
      ∧ LoopInv b0 player point (P ++ [n]) st1 := by
  have hnpt : n ≠ point := fun h => point_not_mem_neighbors point (h ▸ hmemn)
  have hOS : origStones b0 player P = ∅ := origStones_of_offgrid hinv hP
  have hOL : origLibs b0 player P = ∅ := origLibs_of_offgrid hinv hP
  have hE : emptiesOf b0 P = ∅ := emptiesOf_of_offgrid hP
  have hPsub2 : ∀ m ∈ P ++ [n], m ∈ point.neighbors := by
    intro m hm
    rcases List.mem_append.mp hm with h | h
    · exact hPsub m h
    · rw [List.mem_singleton.mp h]
      exact hmemn
  by_cases hon : b0.isOnGrid n = true
  · rcases hgn : b0.grid n with _ | i
    · -- empty neighbor: libs gains n, a fresh singleton string is registered
      have heq : psBody player point ⟨b0, [], [], []⟩ n
          = .ok ⟨⟨b0.numRows, b0.numCols,
              fun q => if q ∈ ({point} : Finset Point) then some b0.next
                else b0.grid q,
              fun j => if j = b0.next
                then ⟨player, ({point} : Finset Point), ({n} : Finset Point)⟩
                else b0.heap j,
              b0.next + 1⟩, [], [], [n]⟩ :=
        @psBody_eval_empty player point ⟨b0, [], [], []⟩ n hon hgn
      have hS : mergedStones b0 player point (P ++ [n]) = {point} := by
        unfold mergedStones
        rw [origStones_append, hOS, origEntryStones_of_none hgn,
          Finset.empty_union, Finset.insert_empty]
      have hE2 : emptiesOf b0 (P ++ [n]) = {n} := by
        rw [emptiesOf_append, hE, if_pos ⟨hon, hgn⟩, Finset.empty_union]
      have hL : mergedLiberties b0 player point (P ++ [n]) = {n} := by
        unfold mergedLiberties
        rw [hE2, origLibs_append, hOL, origEntryLibs_of_none hgn,
          Finset.empty_union, Finset.union_empty, hS]
        ext q
        simp only [Finset.mem_sdiff, Finset.mem_singleton]
        constructor
        · exact And.left
        · rintro rfl
          exact ⟨rfl, hnpt⟩
      refine ⟨_, heq, LoopInv.phaseA _ _ b0.next
        ⟨rfl, rfl, rfl, ?_, ?_, ?_, ?_, le_refl _, Nat.lt_succ_self _,
          ?_, ?_, ?_, ?_, ?_, ?_⟩⟩
      · rw [hE2]
        exact rfl
      · intro q
        rw [hS]
      · show (if b0.next = b0.next
            then (⟨player, ({point} : Finset Point), ({n} : Finset Point)⟩
              : GoString)
            else b0.heap b0.next) = _
        rw [if_pos rfl, hS, hL]
      · intro j hj
        show (if j = b0.next
            then (⟨player, ({point} : Finset Point), ({n} : Finset Point)⟩
              : GoString)
            else b0.heap j) = _
        rw [if_neg (Nat.ne_of_lt hj)]
      · intro j hj
        exact absurd hj (List.not_mem_nil j)
      · intro j hj
        exact absurd hj (List.not_mem_nil j)
      · rw [hS]
        exact rfl
      · intro x hx
        exact absurd hx (Finset.not_mem_empty x)
      · rw [hL, hE2]
        intro x hx
        exact Finset.mem_union_left _ hx
      · intro m hm j hjm
        rcases List.mem_append.mp hm with h | h
        · rw [grid_none_of_offgrid hinv (hP m h)] at hjm
          cases hjm
        · rw [List.mem_singleton.mp h, hgn] at hjm
          cases hjm
    · have hifresh : i < b0.next := hinv.hlt n i hgn
      by_cases hc : (b0.heap i).color = player
      · -- same-color neighbor: its string is merged into the fresh one
        have hdup : (([] : List Nat)).any
            (fun j => b0.heap j = b0.heap i) = false := rfl
        have heq : psBody player point ⟨b0, [], [], []⟩ n
            = .ok ⟨⟨b0.numRows, b0.numCols,
                fun q => if q ∈ ({point} ∪ (b0.heap i).stones : Finset Point)
                  then some b0.next else b0.grid q,
                fun j => if j = b0.next
                  then ⟨player, {point} ∪ (b0.heap i).stones,
                    ((∅ : Finset Point) ∪ (b0.heap i).liberties)
                      \ ({point} ∪ (b0.heap i).stones)⟩
                  else b0.heap j,
                b0.next + 1⟩, [i], [], []⟩ :=
          @psBody_eval_same_append player point ⟨b0, [], [], []⟩ n i hon hgn hc hdup
        have hOS2 : origStones b0 player (P ++ [n]) = (b0.heap i).stones := by
          rw [origStones_append, hOS, origEntryStones_of_same hgn hc,
            Finset.empty_union]
        have hS : mergedStones b0 player point (P ++ [n])
            = insert point (b0.heap i).stones := by
          unfold mergedStones
          rw [hOS2]
        have hS2 : mergedStones b0 player point (P ++ [n])
            = {point} ∪ (b0.heap i).stones := by
          rw [hS, Finset.insert_eq]
        have hE2 : emptiesOf b0 (P ++ [n]) = ∅ := by
          rw [emptiesOf_append, hE, if_neg (by
            rintro ⟨-, hno⟩
            rw [hgn] at hno
            cases hno), Finset.empty_union]
        have hOL2 : origLibs b0 player (P ++ [n]) = (b0.heap i).liberties := by
          rw [origLibs_append, hOL, origEntryLibs_of_same hgn hc,
            Finset.empty_union]
        have hL : mergedLiberties b0 player point (P ++ [n])
            = ((∅ : Finset Point) ∪ (b0.heap i).liberties)
                \ ({point} ∪ (b0.heap i).stones) := by
          unfold mergedLiberties
          rw [hE2, hOL2, hS2]
        refine ⟨_, heq, LoopInv.phaseA _ _ b0.next
          ⟨rfl, rfl, rfl, ?_, ?_, ?_, ?_, le_refl _, Nat.lt_succ_self _,
            ?_, ?_, ?_, ?_, ?_, ?_⟩⟩
        · rw [hE2]
          exact rfl
        · intro q
          rw [hS2]
        · show (if b0.next = b0.next
              then (⟨player, {point} ∪ (b0.heap i).stones,
                ((∅ : Finset Point) ∪ (b0.heap i).liberties)
                  \ ({point} ∪ (b0.heap i).stones)⟩ : GoString)
              else b0.heap b0.next) = _
          rw [if_pos rfl, hS2, hL]
        · intro j hj
          show (if j = b0.next
              then (⟨player, {point} ∪ (b0.heap i).stones,
                ((∅ : Finset Point) ∪ (b0.heap i).liberties)
                  \ ({point} ∪ (b0.heap i).stones)⟩ : GoString)
              else b0.heap j) = _
          rw [if_neg (Nat.ne_of_lt hj)]
        · intro j hj
          rw [List.mem_singleton.mp hj]
          show (if i = b0.next then _ else b0.heap i).color = player
          rw [if_neg (Nat.ne_of_lt hifresh)]
          exact hc
        · intro j hj
          rw [List.mem_singleton.mp hj]
          show i < b0.next + 1
          exact Nat.lt_succ_of_lt hifresh
        · rw [hS]
          show insert point
            (((if i = b0.next then _ else b0.heap i) : GoString).stones ∪ ∅) = _
          rw [if_neg (Nat.ne_of_lt hifresh), Finset.union_empty]
        · rw [hE2, hOL2]
          show ((if i = b0.next then _ else b0.heap i) : GoString).liberties ∪ ∅
            ⊆ ∅ ∪ (b0.heap i).liberties
          rw [if_neg (Nat.ne_of_lt hifresh), Finset.union_empty,
            Finset.empty_union]
        · rw [hL, hE2]
          show ((∅ : Finset Point) ∪ (b0.heap i).liberties)
              \ ({point} ∪ (b0.heap i).stones)
            ⊆ ∅ ∪ (((if i = b0.next then _ else b0.heap i) : GoString).liberties
              ∪ ∅)
          rw [if_neg (Nat.ne_of_lt hifresh)]
          intro x hx
          rcases Finset.mem_union.mp (Finset.mem_sdiff.mp hx).1 with h0 | hx1
          · exact absurd h0 (Finset.not_mem_empty x)
          · exact Finset.mem_union_right _ (Finset.mem_union_left _ hx1)
        · intro m hm j hjm
          rcases List.mem_append.mp hm with h | h
          · rw [grid_none_of_offgrid hinv (hP m h)] at hjm
            cases hjm
          · rw [List.mem_singleton.mp h, hgn] at hjm
            obtain rfl : i = j := Option.some_inj.mp hjm
            exact hc
      · -- opposite-color neighbor: straight to phase B
        have heq : psBody player point ⟨b0, [], [], []⟩ n
            = match removeLibertiesLoop point [i]
                (⟨b0.numRows, b0.numCols,
                  fun q => if q ∈ ({point} : Finset Point) then some b0.next
                    else b0.grid q,
                  fun j => if j = b0.next
                    then ⟨player, ({point} : Finset Point), (∅ : Finset Point)⟩
                    else b0.heap j,
                  b0.next + 1⟩ : Board) with
              | .error (e, b3) => .error (e, b3)
              | .ok b3 => .ok ⟨captureLoop [i] b3, [], [i], []⟩ :=
          @psBody_eval_opp player point ⟨b0, [], [], []⟩ n i hon hgn hc
        have hS : mergedStones b0 player point (P ++ [n]) = {point} := by
          unfold mergedStones
          rw [origStones_append, hOS, origEntryStones_of_opp hgn hc,
            Finset.empty_union, Finset.insert_empty]
        have hE2 : emptiesOf b0 (P ++ [n]) = ∅ := by
          rw [emptiesOf_append, hE, if_neg (by
            rintro ⟨-, hno⟩
            rw [hgn] at hno
            cases hno), Finset.empty_union]
        have hOL2 : origLibs b0 player (P ++ [n]) = ∅ := by
          rw [origLibs_append, hOL, origEntryLibs_of_opp hgn hc,
            Finset.empty_union]
        have hL : mergedLiberties b0 player point (P ++ [n]) = ∅ := by
          unfold mergedLiberties
          rw [hE2, hOL2, Finset.empty_union, Finset.empty_sdiff]
        have hnoopp2 : ∀ m ∈ P ++ [n], ∀ j, b0.grid m = some j
            → (b0.heap j).color = player ∨ j = i := by
          intro m hm j hjm
          rcases List.mem_append.mp hm with h | h
          · rw [grid_none_of_offgrid hinv (hP m h)] at hjm
            cases hjm
          · rw [List.mem_singleton.mp h, hgn] at hjm
            exact Or.inr (Option.some_inj.mp hjm).symm
        obtain ⟨stF, hok, hB⟩ := oppStep_phaseB heq hinv hpton hptempty hmemn
          hPsub2 hgn hc hnoopp2 (le_refl b0.next) rfl rfl
          (by
            intro q
            rw [hS])
          (by
            show (if b0.next = b0.next
                then (⟨player, ({point} : Finset Point), (∅ : Finset Point)⟩
                  : GoString)
                else b0.heap b0.next) = _
            rw [if_pos rfl, hS, hL])
          (by
            intro j hj
            show (if j = b0.next
                then (⟨player, ({point} : Finset Point), (∅ : Finset Point)⟩
                  : GoString)
                else b0.heap j) = _
            rw [if_neg (Nat.ne_of_lt hj)])
          (Nat.lt_succ_self b0.next)
        exact ⟨stF, hok, LoopInv.phaseB _ _ i hB⟩
  · have hoff : b0.isOnGrid n = false := by
      cases hb : b0.isOnGrid n
      · rfl
      · exact absurd hb hon
    refine ⟨_, psBody_eval_offgrid hoff, LoopInv.nobody _ ?_⟩
    intro m hm
    rcases List.mem_append.mp hm with h | h
    · exact hP m h
    · rw [List.mem_singleton.mp h]
      exact hoff

theorem mem_subset_unionStones (b : Board) {l : List Nat} {j : Nat} (hj : j ∈ l) :
    (b.heap j).stones ⊆ unionStones b l := by
  induction l with
  | nil => exact absurd hj (List.not_mem_nil j)
  | cons a t ih =>
    rcases List.mem_cons.mp hj with rfl | hj2
    · exact fun x hx => Finset.mem_union_left _ hx
    · exact fun x hx => Finset.mem_union_right _ (ih hj2 hx)

theorem mem_subset_unionLibs (b : Board) {l : List Nat} {j : Nat} (hj : j ∈ l) :
    (b.heap j).liberties ⊆ unionLibs b l := by
  induction l with
  | nil => exact absurd hj (List.not_mem_nil j)
  | cons a t ih =>
    rcases List.mem_cons.mp hj with rfl | hj2
    · exact fun x hx => Finset.mem_union_left _ hx
    · exact fun x hx => Finset.mem_union_right _ (ih hj2 hx)

/-- Closed form of the merging fold of `place_stone` under the loop
invariant's accumulated-set descriptions: the result is the merged string of
the processed prefix. -/
theorem fold_value {b0 b : Board} {player : Player} {point : Point}
    {P' : List Point} {sameL : List Nat} {libsL : List Point}
    (hptP : point ∉ emptiesOf b0 P')
    (hlibs : libsL.toFinset = emptiesOf b0 P')
    (hss : insert point (unionStones b sameL) = mergedStones b0 player point P')
    (hsub : unionLibs b sameL ⊆ emptiesOf b0 P' ∪ origLibs b0 player P')
    (hsup : mergedLiberties b0 player point P'
      ⊆ emptiesOf b0 P' ∪ unionLibs b sameL) :
    (sameL.foldl (fun acc j => acc.mergedValue (b.heap j))
        ⟨player, {point}, libsL.toFinset⟩ : GoString)
      = ⟨player, mergedStones b0 player point P',
          mergedLiberties b0 player point P'⟩ := by
  have hd : ∀ x ∈ ({point} : Finset Point), x ∉ (libsL.toFinset : Finset Point) := by
    intro x hx
    rw [Finset.mem_singleton.mp hx, hlibs]
    exact hptP
  rw [foldl_mergedValue b sameL ⟨player, {point}, libsL.toFinset⟩ hd]
  show (⟨player, {point} ∪ unionStones b sameL,
    (libsL.toFinset ∪ unionLibs b sameL)
      \ ({point} ∪ unionStones b sameL)⟩ : GoString) = _
  rw [hlibs, ← Finset.insert_eq, hss]
  refine congrArg (fun X => (⟨player, mergedStones b0 player point P', X⟩
    : GoString)) ?_
  show (emptiesOf b0 P' ∪ unionLibs b sameL) \ mergedStones b0 player point P'
    = (emptiesOf b0 P' ∪ origLibs b0 player P') \ mergedStones b0 player point P'
  exact union_sdiff_eq_of_between hsub hsup

/-- Allocating and registering the merged string on top of the current loop
board yields a state in phase A again, provided the accumulated lists
describe the processed prefix `P'`. -/
theorem registerStep_invA {b0 : Board} {player : Player} {point : Point}
    {P' : List Point} {st : PSState} {sameL : List Nat} {libsL : List Point}
    (hptP : point ∉ emptiesOf b0 P')
    (hrows : st.board.numRows = b0.numRows)
    (hcols : st.board.numCols = b0.numCols)
    (hgridst : ∀ q, q ∉ mergedStones b0 player point P'
      → st.board.grid q = b0.grid q)
    (hold : ∀ j, j < b0.next → st.board.heap j = b0.heap j)
    (hfresh : b0.next ≤ st.board.next)
    (hlibs : libsL.toFinset = emptiesOf b0 P')
    (hsc : ∀ j ∈ sameL, (st.board.heap j).color = player)
    (hslt : ∀ j ∈ sameL, j < st.board.next)
    (hss : insert point (unionStones st.board sameL)
      = mergedStones b0 player point P')
    (hsub : unionLibs st.board sameL
      ⊆ emptiesOf b0 P' ∪ origLibs b0 player P')
    (hsup : mergedLiberties b0 player point P'
      ⊆ emptiesOf b0 P' ∪ unionLibs st.board sameL)
    (hnoopp : ∀ m ∈ P', ∀ j, b0.grid m = some j → (b0.heap j).color = player) :
    InvA b0 player point P'
      ⟨⟨st.board.numRows, st.board.numCols,
        fun q => if q ∈ ((sameL.foldl
            (fun acc j => acc.mergedValue (st.board.heap j))
            ⟨player, {point}, libsL.toFinset⟩ : GoString)).stones
          then some st.board.next else st.board.grid q,
        fun j => if j = st.board.next
          then sameL.foldl (fun acc j => acc.mergedValue (st.board.heap j))
            ⟨player, {point}, libsL.toFinset⟩
          else st.board.heap j,
        st.board.next + 1⟩, sameL, [], libsL⟩ st.board.next := by
  have hval : (sameL.foldl (fun acc j => acc.mergedValue (st.board.heap j))
      ⟨player, {point}, libsL.toFinset⟩ : GoString)
      = ⟨player, mergedStones b0 player point P',
          mergedLiberties b0 player point P'⟩ :=
    fold_value hptP hlibs hss hsub hsup
  have hvs : ((sameL.foldl (fun acc j => acc.mergedValue (st.board.heap j))
      ⟨player, {point}, libsL.toFinset⟩ : GoString)).stones
      = mergedStones b0 player point P' := by
    rw [hval]
  have hB : ∀ j ∈ sameL,
      (⟨st.board.numRows, st.board.numCols,
        fun q => if q ∈ ((sameL.foldl
            (fun acc j => acc.mergedValue (st.board.heap j))
            ⟨player, {point}, libsL.toFinset⟩ : GoString)).stones
          then some st.board.next else st.board.grid q,
        fun j => if j = st.board.next
          then sameL.foldl (fun acc j => acc.mergedValue (st.board.heap j))
            ⟨player, {point}, libsL.toFinset⟩
          else st.board.heap j,
        st.board.next + 1⟩ : Board).heap j = st.board.heap j := by
    intro j hj
    show (if j = st.board.next then _ else st.board.heap j) = _
    rw [if_neg (Nat.ne_of_lt (hslt j hj))]
  refine ⟨hrows, hcols, rfl, hlibs, ?_, ?_, ?_, hfresh, Nat.lt_succ_self _,
    ?_, ?_, ?_, ?_, ?_, hnoopp⟩
  · intro q
    show (if q ∈ ((sameL.foldl
        (fun acc j => acc.mergedValue (st.board.heap j))
        ⟨player, {point}, libsL.toFinset⟩ : GoString)).stones
      then some st.board.next else st.board.grid q) = _
    rw [hvs]
    by_cases hq : q ∈ mergedStones b0 player point P'
    · rw [if_pos hq, if_pos hq]
    · rw [if_neg hq, if_neg hq]
      exact hgridst q hq
  · show (if st.board.next = st.board.next
      then (sameL.foldl (fun acc j => acc.mergedValue (st.board.heap j))
        ⟨player, {point}, libsL.toFinset⟩ : GoString)
      else st.board.heap st.board.next) = _
    rw [if_pos rfl]
    exact hval
  · intro j hj
    show (if j = st.board.next then _ else st.board.heap j) = _
    rw [if_neg (Nat.ne_of_lt (lt_of_lt_of_le hj hfresh))]
    exact hold j hj
  · intro j hj
    show ((if j = st.board.next then _ else st.board.heap j)
      : GoString).color = player
    rw [if_neg (Nat.ne_of_lt (hslt j hj))]
    exact hsc j hj
  · intro j hj
    show j < st.board.next + 1
    exact Nat.lt_succ_of_lt (hslt j hj)
  · exact (congrArg (insert point) (unionStones_congr sameL hB)).trans hss
  · exact (unionLibs_congr sameL hB).symm ▸ hsub
  · exact (unionLibs_congr sameL hB).symm ▸ hsup

/-- Stepping phase A over one more neighbor: an off-grid neighbor leaves the
state unchanged; an empty or same-color neighbor re-registers the (possibly
grown) merged string, staying in phase A; an opposite-color neighbor
processes that string and moves to phase B. -/
theorem loopInv_stepA {b0 : Board} {player : Player} {point : Point}
    {P : List Point} {st : PSState} {curId : Nat} {n : Point}
    (hinv : BoardInv b0) (hpton : b0.isOnGrid point = true)
    (hptempty : b0.grid point = none)
    (hmemn : n ∈ point.neighbors)
    (hPsub : ∀ m ∈ P, m ∈ point.neighbors)
    (hA : InvA b0 player point P st curId) :
    ∃ st1, psBody player point st n = .ok st1
      ∧ LoopInv b0 player point (P ++ [n]) st1 := by
  have hnpt : n ≠ point := fun h => point_not_mem_neighbors point (h ▸ hmemn)
  have hPsub2 : ∀ m ∈ P ++ [n], m ∈ point.neighbors := by
    intro m hm
    rcases List.mem_append.mp hm with h | h
    · exact hPsub m h
    · rw [List.mem_singleton.mp h]
      exact hmemn
  have hptP : point ∉ emptiesOf b0 P := by
    intro hpt
    obtain ⟨hmem, -, -⟩ := mem_emptiesOf.mp hpt
    exact point_not_mem_neighbors point (hPsub point hmem)
  have hptP2 : point ∉ emptiesOf b0 (P ++ [n]) := by
    intro hpt
    obtain ⟨hmem, -, -⟩ := mem_emptiesOf.mp hpt
    rcases List.mem_append.mp hmem with h | h
    · exact point_not_mem_neighbors point (hPsub point h)
    · exact hnpt (List.mem_singleton.mp h).symm
  have hfresh2 : b0.next ≤ st.board.next :=
    le_trans hA.hfresh (le_of_lt hA.hnext)
  have hdimON : ∀ q, st.board.isOnGrid q = b0.isOnGrid q :=
    isOnGrid_eq_of_dims hA.hrows hA.hcols
  by_cases hon : st.board.isOnGrid n = true
  · have hon0 : b0.isOnGrid n = true := by
      rw [← hdimON n]
      exact hon
    rcases hgn0 : b0.grid n with _ | k
    · -- empty neighbor on the entry board
      have hnS : n ∉ mergedStones b0 player point P := by
        intro h
        rcases Finset.mem_insert.mp h with h2 | h2
        · exact hnpt h2
        · obtain ⟨k, hgk, -, -, -⟩ := exists_of_mem_origStones hinv h2
          rw [hgn0] at hgk
          cases hgk
      have hgn' : st.board.grid n = none := by
        rw [hA.hgrid n, if_neg hnS]
        exact hgn0
      have heq := @psBody_eval_empty player point st n hon hgn'
      rw [hA.hopp] at heq
      have heq2 : psBody player point st n
          = .ok ⟨⟨st.board.numRows, st.board.numCols,
              fun q => if q ∈ ((st.same.foldl
                  (fun acc j => acc.mergedValue (st.board.heap j))
                  ⟨player, {point}, (st.libs ++ [n]).toFinset⟩ : GoString)).stones
                then some st.board.next else st.board.grid q,
              fun j => if j = st.board.next
                then st.same.foldl (fun acc j => acc.mergedValue (st.board.heap j))
                  ⟨player, {point}, (st.libs ++ [n]).toFinset⟩
                else st.board.heap j,
              st.board.next + 1⟩, st.same, [], st.libs ++ [n]⟩ := heq
      have hSeq : mergedStones b0 player point (P ++ [n])
          = mergedStones b0 player point P := by
        unfold mergedStones
        rw [origStones_append, origEntryStones_of_none hgn0, Finset.union_empty]
      have hE' : emptiesOf b0 (P ++ [n]) = emptiesOf b0 P ∪ {n} := by
        rw [emptiesOf_append, if_pos ⟨hon0, hgn0⟩]
      have hOLeq : origLibs b0 player (P ++ [n]) = origLibs b0 player P := by
        rw [origLibs_append, origEntryLibs_of_none hgn0, Finset.union_empty]
      refine ⟨_, heq2, LoopInv.phaseA _ _ st.board.next
        (registerStep_invA hptP2 hA.hrows hA.hcols ?_ hA.hold hfresh2 ?_
          hA.hsame_color hA.hsame_lt ?_ ?_ ?_ ?_)⟩
      · intro q hq
        rw [hA.hgrid q, if_neg (fun h => hq (by rw [hSeq]; exact h))]
      · rw [List.toFinset_append, hA.hlibs, hE']
        exact rfl
      · rw [hSeq]
        exact hA.hsame_stones
      · intro x hx
        rw [hE', hOLeq]
        rcases Finset.mem_union.mp (hA.hsame_libs_sub hx) with h | h
        · exact Finset.mem_union_left _ (Finset.mem_union_left _ h)
        · exact Finset.mem_union_right _ h
      · intro x hx
        obtain ⟨hx1, hx2⟩ := Finset.mem_sdiff.mp hx
        rw [hE', hOLeq] at hx1
        rw [hE']
        rcases Finset.mem_union.mp hx1 with h | h
        · exact Finset.mem_union_left _ h
        · have hx2' : x ∉ mergedStones b0 player point P :=
            fun hh => hx2 (by rw [hSeq]; exact hh)
          rcases Finset.mem_union.mp (hA.hsame_libs_sup
            (Finset.mem_sdiff.mpr ⟨Finset.mem_union_right _ h, hx2'⟩)) with h3 | h3
          · exact Finset.mem_union_left _ (Finset.mem_union_left _ h3)
          · exact Finset.mem_union_right _ h3
      · intro m hm j hjm
        rcases List.mem_append.mp hm with h | h
        · exact hA.hnoopp m h j hjm
        · rw [List.mem_singleton.mp h, hgn0] at hjm
          cases hjm
    · -- occupied neighbor
      have hkfresh : k < b0.next := hinv.hlt n k hgn0
      have hEeq : emptiesOf b0 (P ++ [n]) = emptiesOf b0 P := by
        rw [emptiesOf_append, if_neg (by
          rintro ⟨-, h2⟩
          rw [hgn0] at h2
          cases h2), Finset.union_empty]
      by_cases hnS : n ∈ mergedStones b0 player point P
      · -- the neighbor stone is already part of the merged string
        have hnOS : n ∈ origStones b0 player P := by
          rcases Finset.mem_insert.mp hnS with h | h
          · exact absurd h hnpt
          · exact h
        obtain ⟨k2, hgk2, hck2, hks2, hkl2⟩ := exists_of_mem_origStones hinv hnOS
        have hkk : k2 = k := Option.some_inj.mp (hgk2.symm.trans hgn0)
        rw [hkk] at hck2 hks2 hkl2
        have hgn' : st.board.grid n = some curId := by
          rw [hA.hgrid n, if_pos hnS]
        have hccur : (st.board.heap curId).color = player := by
          rw [hA.hcur]
        have hSeq : mergedStones b0 player point (P ++ [n])
            = mergedStones b0 player point P := by
          unfold mergedStones
          rw [origStones_append, origEntryStones_of_same hgn0 hck2,
            Finset.union_eq_left.mpr hks2]
        have hOLeq : origLibs b0 player (P ++ [n]) = origLibs b0 player P := by
          rw [origLibs_append, origEntryLibs_of_same hgn0 hck2,
            Finset.union_eq_left.mpr hkl2]
        have hLeq : mergedLiberties b0 player point (P ++ [n])
            = mergedLiberties b0 player point P := by
          unfold mergedLiberties
          rw [hEeq, hOLeq, hSeq]
        have hnoopp2 : ∀ m ∈ P ++ [n], ∀ j, b0.grid m = some j
            → (b0.heap j).color = player := by
          intro m hm j hjm
          rcases List.mem_append.mp hm with h | h
          · exact hA.hnoopp m h j hjm
          · rw [List.mem_singleton.mp h, hgn0] at hjm
            obtain rfl : k = j := Option.some_inj.mp hjm
            exact hck2
        cases hdup : st.same.any
            (fun j => st.board.heap j = st.board.heap curId) with
        | true =>
          have heq := @psBody_eval_same_skip player point st n curId hon hgn'
            hccur hdup
          rw [hA.hopp] at heq
          have heq2 : psBody player point st n
              = .ok ⟨⟨st.board.numRows, st.board.numCols,
                  fun q => if q ∈ ((st.same.foldl
                      (fun acc j => acc.mergedValue (st.board.heap j))
                      ⟨player, {point}, st.libs.toFinset⟩ : GoString)).stones
                    then some st.board.next else st.board.grid q,
                  fun j => if j = st.board.next
                    then st.same.foldl
                      (fun acc j => acc.mergedValue (st.board.heap j))
                      ⟨player, {point}, st.libs.toFinset⟩
                    else st.board.heap j,
                  st.board.next + 1⟩, st.same, [], st.libs⟩ := heq
          refine ⟨_, heq2, LoopInv.phaseA _ _ st.board.next
            (registerStep_invA hptP2 hA.hrows hA.hcols ?_ hA.hold hfresh2 ?_
              hA.hsame_color hA.hsame_lt ?_ ?_ ?_ hnoopp2)⟩
          · intro q hq
            rw [hA.hgrid q, if_neg (fun h => hq (by rw [hSeq]; exact h))]
          · rw [hEeq]
            exact hA.hlibs
          · rw [hSeq]
            exact hA.hsame_stones
          · intro x hx
            rw [hEeq, hOLeq]
            exact hA.hsame_libs_sub hx
          · intro x hx
            rw [hLeq] at hx
            rw [hEeq]
            exact hA.hsame_libs_sup hx
        | false =>
          have heq := @psBody_eval_same_append player point st n curId hon hgn'
            hccur hdup
          rw [hA.hopp] at heq
          have heq2 : psBody player point st n
              = .ok ⟨⟨st.board.numRows, st.board.numCols,
                  fun q => if q ∈ (((st.same ++ [curId]).foldl
                      (fun acc j => acc.mergedValue (st.board.heap j))
                      ⟨player, {point}, st.libs.toFinset⟩ : GoString)).stones
                    then some st.board.next else st.board.grid q,
                  fun j => if j = st.board.next
                    then (st.same ++ [curId]).foldl
                      (fun acc j => acc.mergedValue (st.board.heap j))
                      ⟨player, {point}, st.libs.toFinset⟩
                    else st.board.heap j,
                  st.board.next + 1⟩, st.same ++ [curId], [], st.libs⟩ := heq
          have hcurstones : (st.board.heap curId).stones
              = mergedStones b0 player point P := by
            rw [hA.hcur]
          have hcurlibs : (st.board.heap curId).liberties
              = mergedLiberties b0 player point P := by
            rw [hA.hcur]
          refine ⟨_, heq2, LoopInv.phaseA _ _ st.board.next
            (registerStep_invA hptP2 hA.hrows hA.hcols ?_ hA.hold hfresh2 ?_
              ?_ ?_ ?_ ?_ ?_ hnoopp2)⟩
          · intro q hq
            rw [hA.hgrid q, if_neg (fun h => hq (by rw [hSeq]; exact h))]
          · rw [hEeq]
            exact hA.hlibs
          · intro j hj
            rcases List.mem_append.mp hj with h | h
            · exact hA.hsame_color j h
            · rw [List.mem_singleton.mp h]
              exact hccur
          · intro j hj
            rcases List.mem_append.mp hj with h | h
            · exact hA.hsame_lt j h
            · rw [List.mem_singleton.mp h]
              exact hA.hnext
          · rw [unionStones_append, hcurstones, hSeq, ← hA.hsame_stones]
            ext x
            simp only [Finset.mem_insert, Finset.mem_union]
            tauto
          · intro x hx
            rw [unionLibs_append, hcurlibs] at hx
            rw [hEeq, hOLeq]
            rcases Finset.mem_union.mp hx with h | h
            · exact hA.hsame_libs_sub h
            · exact (Finset.mem_sdiff.mp h).1
          · intro x hx
            rw [hLeq] at hx
            rw [hEeq, unionLibs_append]
            rcases Finset.mem_union.mp (hA.hsame_libs_sup hx) with h | h
            · exact Finset.mem_union_left _ h
            · exact Finset.mem_union_right _ (Finset.mem_union_left _ h)
      · -- the neighbor stone belongs to a string untouched so far
        have hgn' : st.board.grid n = some k := by
          rw [hA.hgrid n, if_neg hnS]
          exact hgn0
        have hkst : st.board.heap k = b0.heap k := hA.hold k hkfresh
        by_cases hcol : (b0.heap k).color = player
        · -- same color: merge the string in
          have hck' : (st.board.heap k).color = player := by
            rw [hkst]
            exact hcol
          have hS'u : mergedStones b0 player point (P ++ [n])
              = mergedStones b0 player point P ∪ (b0.heap k).stones := by
            unfold mergedStones
            rw [origStones_append, origEntryStones_of_same hgn0 hcol,
              ← Finset.insert_union]
          have hOL'u : origLibs b0 player (P ++ [n])
              = origLibs b0 player P ∪ (b0.heap k).liberties := by
            rw [origLibs_append, origEntryLibs_of_same hgn0 hcol]
          have hnoopp2 : ∀ m ∈ P ++ [n], ∀ j, b0.grid m = some j
              → (b0.heap j).color = player := by
            intro m hm j hjm
            rcases List.mem_append.mp hm with h | h
            · exact hA.hnoopp m h j hjm
            · rw [List.mem_singleton.mp h, hgn0] at hjm
              obtain rfl : k = j := Option.some_inj.mp hjm
              exact hcol
          cases hdup : st.same.any
              (fun j => st.board.heap j = st.board.heap k) with
          | true =>
            obtain ⟨j0, hj0mem, hj0eq⟩ := List.any_eq_true.mp hdup
            have hj0 : st.board.heap j0 = st.board.heap k :=
              of_decide_eq_true hj0eq
            have hkUS : (b0.heap k).stones ⊆ unionStones st.board st.same := by
              intro x hx
              refine mem_subset_unionStones st.board hj0mem ?_
              rw [hj0, hkst]
              exact hx
            have hkUL : (b0.heap k).liberties ⊆ unionLibs st.board st.same := by
              intro x hx
              refine mem_subset_unionLibs st.board hj0mem ?_
              rw [hj0, hkst]
              exact hx
            have heq := @psBody_eval_same_skip player point st n k hon hgn'
              hck' hdup
            rw [hA.hopp] at heq
            have heq2 : psBody player point st n
                = .ok ⟨⟨st.board.numRows, st.board.numCols,
                    fun q => if q ∈ ((st.same.foldl
                        (fun acc j => acc.mergedValue (st.board.heap j))
                        ⟨player, {point}, st.libs.toFinset⟩ : GoString)).stones
                      then some st.board.next else st.board.grid q,
                    fun j => if j = st.board.next
                      then st.same.foldl
                        (fun acc j => acc.mergedValue (st.board.heap j))
                        ⟨player, {point}, st.libs.toFinset⟩
                      else st.board.heap j,
                    st.board.next + 1⟩, st.same, [], st.libs⟩ := heq
            refine ⟨_, heq2, LoopInv.phaseA _ _ st.board.next
              (registerStep_invA hptP2 hA.hrows hA.hcols ?_ hA.hold hfresh2 ?_
                hA.hsame_color hA.hsame_lt ?_ ?_ ?_ hnoopp2)⟩
            · intro q hq
              rw [hA.hgrid q, if_neg (fun h => hq (by
                rw [hS'u]
                exact Finset.mem_union_left _ h))]
            · rw [hEeq]
              exact hA.hlibs
            · rw [hS'u, ← hA.hsame_stones]
              exact (Finset.union_eq_left.mpr
                (fun x hx => Finset.mem_insert_of_mem (hkUS hx))).symm
            · intro x hx
              rw [hEeq, hOL'u]
              rcases Finset.mem_union.mp (hA.hsame_libs_sub hx) with h | h
              · exact Finset.mem_union_left _ h
              · exact Finset.mem_union_right _ (Finset.mem_union_left _ h)
            · intro x hx
              obtain ⟨hx1, hx2⟩ := Finset.mem_sdiff.mp hx
              rw [hEeq, hOL'u] at hx1
              rw [hEeq]
              rcases Finset.mem_union.mp hx1 with h | h
              · exact Finset.mem_union_left _ h
              · rcases Finset.mem_union.mp h with h2 | h2
                · have hx2' : x ∉ mergedStones b0 player point P :=
                    fun hh => hx2 (by
                      rw [hS'u]
                      exact Finset.mem_union_left _ hh)
                  exact hA.hsame_libs_sup (Finset.mem_sdiff.mpr
                    ⟨Finset.mem_union_right _ h2, hx2'⟩)
                · exact Finset.mem_union_right _ (hkUL h2)
          | false =>
            have heq := @psBody_eval_same_append player point st n k hon hgn'
              hck' hdup
            rw [hA.hopp] at heq
            have heq2 : psBody player point st n
                = .ok ⟨⟨st.board.numRows, st.board.numCols,
                    fun q => if q ∈ (((st.same ++ [k]).foldl
                        (fun acc j => acc.mergedValue (st.board.heap j))
                        ⟨player, {point}, st.libs.toFinset⟩ : GoString)).stones
                      then some st.board.next else st.board.grid q,
                    fun j => if j = st.board.next
                      then (st.same ++ [k]).foldl
                        (fun acc j => acc.mergedValue (st.board.heap j))
                        ⟨player, {point}, st.libs.toFinset⟩
                      else st.board.heap j,
                    st.board.next + 1⟩, st.same ++ [k], [], st.libs⟩ := heq
            refine ⟨_, heq2, LoopInv.phaseA _ _ st.board.next
              (registerStep_invA hptP2 hA.hrows hA.hcols ?_ hA.hold hfresh2 ?_
                ?_ ?_ ?_ ?_ ?_ hnoopp2)⟩
            · intro q hq
              rw [hA.hgrid q, if_neg (fun h => hq (by
                rw [hS'u]
                exact Finset.mem_union_left _ h))]
            · rw [hEeq]
              exact hA.hlibs
            · intro j hj
              rcases List.mem_append.mp hj with h | h
              · exact hA.hsame_color j h
              · rw [List.mem_singleton.mp h]
                exact hck'
            · intro j hj
              rcases List.mem_append.mp hj with h | h
              · exact hA.hsame_lt j h
              · rw [List.mem_singleton.mp h]
                exact lt_of_lt_of_le hkfresh hfresh2
            · rw [unionStones_append, hkst, hS'u, ← hA.hsame_stones,
                ← Finset.insert_union]
            · intro x hx
              rw [unionLibs_append, hkst] at hx
              rw [hEeq, hOL'u]
              rcases Finset.mem_union.mp hx with h | h
              · rcases Finset.mem_union.mp (hA.hsame_libs_sub h) with h2 | h2
                · exact Finset.mem_union_left _ h2
                · exact Finset.mem_union_right _ (Finset.mem_union_left _ h2)
              · exact Finset.mem_union_right _ (Finset.mem_union_right _ h)
            · intro x hx
              obtain ⟨hx1, hx2⟩ := Finset.mem_sdiff.mp hx
              rw [hEeq, hOL'u] at hx1
              rw [hEeq, unionLibs_append, hkst]
              rcases Finset.mem_union.mp hx1 with h | h
              · exact Finset.mem_union_left _ h
              · rcases Finset.mem_union.mp h with h2 | h2
                · have hx2' : x ∉ mergedStones b0 player point P :=
                    fun hh => hx2 (by
                      rw [hS'u]
                      exact Finset.mem_union_left _ hh)
                  rcases Finset.mem_union.mp (hA.hsame_libs_sup
                    (Finset.mem_sdiff.mpr
                      ⟨Finset.mem_union_right _ h2, hx2'⟩)) with h3 | h3
                  · exact Finset.mem_union_left _ h3
                  · exact Finset.mem_union_right _ (Finset.mem_union_left _ h3)
                · exact Finset.mem_union_right _ (Finset.mem_union_right _ h2)
        · -- opposite color: erase the liberty and check the capture
          have hck' : ¬ (st.board.heap k).color = player := by
            rw [hkst]
            exact hcol
          have hSeq : mergedStones b0 player point (P ++ [n])
              = mergedStones b0 player point P := by
            unfold mergedStones
            rw [origStones_append, origEntryStones_of_opp hgn0 hcol,
              Finset.union_empty]
          have hOLeq : origLibs b0 player (P ++ [n]) = origLibs b0 player P := by
            rw [origLibs_append, origEntryLibs_of_opp hgn0 hcol,
              Finset.union_empty]
          have hLeq : mergedLiberties b0 player point (P ++ [n])
              = mergedLiberties b0 player point P := by
            unfold mergedLiberties
            rw [hEeq, hOLeq, hSeq]
          have hnoopp2 : ∀ m ∈ P ++ [n], ∀ j, b0.grid m = some j
              → (b0.heap j).color = player ∨ j = k := by
            intro m hm j hjm
            rcases List.mem_append.mp hm with h | h
            · exact Or.inl (hA.hnoopp m h j hjm)
            · rw [List.mem_singleton.mp h, hgn0] at hjm
              exact Or.inr (Option.some_inj.mp hjm).symm
          have hval : (st.same.foldl
              (fun acc j => acc.mergedValue (st.board.heap j))
              ⟨player, {point}, st.libs.toFinset⟩ : GoString)
              = ⟨player, mergedStones b0 player point P,
                  mergedLiberties b0 player point P⟩ :=
            fold_value hptP hA.hlibs hA.hsame_stones hA.hsame_libs_sub
              hA.hsame_libs_sup
          have heq := @psBody_eval_opp player point st n k hon hgn' hck'
          rw [hA.hopp] at heq
          have heq2 : psBody player point st n
              = match removeLibertiesLoop point [k]
                  (⟨st.board.numRows, st.board.numCols,
                    fun q => if q ∈ ((st.same.foldl
                        (fun acc j => acc.mergedValue (st.board.heap j))
                        ⟨player, {point}, st.libs.toFinset⟩ : GoString)).stones
                      then some st.board.next else st.board.grid q,
                    fun j => if j = st.board.next
                      then st.same.foldl
                        (fun acc j => acc.mergedValue (st.board.heap j))
                        ⟨player, {point}, st.libs.toFinset⟩
                      else st.board.heap j,
                    st.board.next + 1⟩ : Board) with
                | .error (e, b3) => .error (e, b3)
                | .ok b3 => .ok ⟨captureLoop [k] b3, st.same, [k], st.libs⟩ := heq
          obtain ⟨stF, hok, hB⟩ := oppStep_phaseB heq2 hinv hpton hptempty hmemn
            hPsub2 hgn0 hcol hnoopp2 hfresh2 hA.hrows hA.hcols
            (by
              intro q
              show (if q ∈ ((st.same.foldl
                  (fun acc j => acc.mergedValue (st.board.heap j))
                  ⟨player, {point}, st.libs.toFinset⟩ : GoString)).stones
                then some st.board.next else st.board.grid q) = _
              have hvs : ((st.same.foldl
                  (fun acc j => acc.mergedValue (st.board.heap j))
                  ⟨player, {point}, st.libs.toFinset⟩ : GoString)).stones
                  = mergedStones b0 player point (P ++ [n]) := by
                rw [hval, hSeq]
              rw [hvs]
              by_cases hq : q ∈ mergedStones b0 player point (P ++ [n])
              · rw [if_pos hq, if_pos hq]
              · rw [if_neg hq, if_neg hq, hA.hgrid q,
                  if_neg (fun h => hq (by rw [hSeq]; exact h))])
            (by
              show (if st.board.next = st.board.next
                then (st.same.foldl
                  (fun acc j => acc.mergedValue (st.board.heap j))
                  ⟨player, {point}, st.libs.toFinset⟩ : GoString)
                else st.board.heap st.board.next) = _
              rw [if_pos rfl, hval, hSeq, hLeq])
            (by
              intro j hj
              show (if j = st.board.next then _ else st.board.heap j) = _
              rw [if_neg (Nat.ne_of_lt (lt_of_lt_of_le hj hfresh2))]
              exact hA.hold j hj)
            (Nat.lt_succ_self _)
          exact ⟨stF, hok, LoopInv.phaseB _ _ k hB⟩
  · -- off-grid neighbor: continue
    have hoff : st.board.isOnGrid n = false := by
      cases hb : st.board.isOnGrid n
      · rfl
      · exact absurd hb hon
    have hoff0 : b0.isOnGrid n = false := by
      rw [← hdimON n]
      exact hoff
    have hgn0 : b0.grid n = none := grid_none_of_offgrid hinv hoff0
    have hSeq : mergedStones b0 player point (P ++ [n])
        = mergedStones b0 player point P := by
      unfold mergedStones
      rw [origStones_append, origEntryStones_of_none hgn0, Finset.union_empty]
    have hEeq : emptiesOf b0 (P ++ [n]) = emptiesOf b0 P := by
      rw [emptiesOf_append, if_neg (by
        rintro ⟨h1, -⟩
        rw [hoff0] at h1
        cases h1), Finset.union_empty]
    have hOLeq : origLibs b0 player (P ++ [n]) = origLibs b0 player P := by
      rw [origLibs_append, origEntryLibs_of_none hgn0, Finset.union_empty]
    have hLeq : mergedLiberties b0 player point (P ++ [n])
        = mergedLiberties b0 player point P := by
      unfold mergedLiberties
      rw [hEeq, hOLeq, hSeq]
    refine ⟨st, psBody_eval_offgrid hoff, LoopInv.phaseA _ _ curId
      ⟨hA.hrows, hA.hcols, hA.hopp, ?_, ?_, ?_, hA.hold, hA.hfresh, hA.hnext,
        hA.hsame_color, hA.hsame_lt, ?_, ?_, ?_, ?_⟩⟩
    · rw [hEeq]
      exact hA.hlibs
    · intro q
      rw [hSeq]
      exact hA.hgrid q
    · rw [hSeq, hLeq]
      exact hA.hcur
    · rw [hSeq]
      exact hA.hsame_stones
    · rw [hEeq, hOLeq]
      exact hA.hsame_libs_sub
    · rw [hLeq, hEeq]
      exact hA.hsame_libs_sup
    · intro m hm j hjm
      rcases List.mem_append.mp hm with h | h
      · exact hA.hnoopp m h j hjm
      · rw [List.mem_singleton.mp h, hgn0] at hjm
        cases hjm

theorem psFold_nil {ε σ α : Type} (f : σ → α → Except ε σ) (s : σ) :
    List.foldlM f s [] = pure s := rfl

theorem psFold_cons {ε σ α : Type} (f : σ → α → Except ε σ) (s : σ)
    (a : α) (t : List α) :
    List.foldlM f s (a :: t) = f s a >>= fun x => List.foldlM f x t := rfl

/-- If the neighbor loop of `place_stone` runs to completion from the initial
loop state, the resulting board satisfies the board invariant. -/
theorem loop_ok_boardInv {b0 : Board} {player : Player} {point : Point}
    (hinv : BoardInv b0) (hpton : b0.isOnGrid point = true)
    (hptempty : b0.grid point = none) :
    ∀ (rest P : List Point) (st : PSState),
      point.neighbors = P ++ rest →
      LoopInv b0 player point P st →
      ∀ stF, List.foldlM (psBody player point) st rest = Except.ok stF →
      BoardInv stF.board := by
  intro rest
  induction rest with
  | nil =>
    intro P st hsplit hLI stF hfold
    rw [List.append_nil] at hsplit
    obtain rfl : st = stF := Except.ok.inj
      (show (Except.ok st : Except (Err × Board) PSState) = Except.ok stF
        from hfold)
    cases hLI with
    | nobody hP => exact hinv
    | phaseA P2 curId hA =>
      refine invA_final_boardInv hinv hpton hptempty ?_ ?_ hA
      · intro m hm
        rw [hsplit]
        exact hm
      · intro m hm _
        rw [hsplit] at hm
        exact hm
    | phaseB P2 oppId hB =>
      refine hB.hfinal ?_
      intro m hm hmP
      rw [hsplit] at hm
      exact absurd hm hmP
  | cons n rest2 ih =>
    intro P st hsplit hLI stF hfold
    have hmemn : n ∈ point.neighbors := by
      rw [hsplit]
      exact List.mem_append.mpr (Or.inr (List.mem_cons_self n rest2))
    have hPsub : ∀ m ∈ P, m ∈ point.neighbors := by
      intro m hm
      rw [hsplit]
      exact List.mem_append.mpr (Or.inl hm)
    have hsplit2 : point.neighbors = (P ++ [n]) ++ rest2 := by
      rw [hsplit, List.append_assoc]
      rfl
    rw [psFold_cons] at hfold
    cases hLI with
    | nobody hP =>
      obtain ⟨st1, hok, hLI1⟩ :=
        loopInv_stepNobody hinv hpton hptempty hmemn hPsub hP
      rw [hok] at hfold
      exact ih (P ++ [n]) st1 hsplit2 hLI1 stF hfold
    | phaseA P2 curId hA =>
      obtain ⟨st1, hok, hLI1⟩ :=
        loopInv_stepA hinv hpton hptempty hmemn hPsub hA
      rw [hok] at hfold
      exact ih (P ++ [n]) st1 hsplit2 hLI1 stF hfold
    | phaseB P2 oppId hB =>
      rcases loopInv_stepB hB with ⟨e, b', herr⟩ | ⟨hok, hB2⟩
      · rw [herr] at hfold
        cases (show (Except.error (e, b') : Except (Err × Board) PSState)
          = Except.ok stF from hfold)
      · rw [hok] at hfold
        exact ih (P ++ [n]) _ hsplit2 (LoopInv.phaseB _ _ oppId hB2) stF hfold

/-- A successful `place_stone` call preserves the board invariant. -/
theorem placeStone_ok_boardInv {b : Board} {player : Player} {point : Point}
    {bR : Board} (hinv : BoardInv b)
    (h : b.placeStone player point = (none, bR)) : BoardInv bR := by
  unfold Board.placeStone at h
  by_cases h1 : b.isOnGrid point = false
  · rw [if_pos h1] at h
    injection h with h1' h2'
    cases h1'
  · rw [if_neg h1] at h
    by_cases h2 : (b.grid point).isSome
    · rw [if_pos h2] at h
      injection h with h1' h2'
      cases h1'
    · rw [if_neg h2] at h
      have hpton : b.isOnGrid point = true := by
        cases hb : b.isOnGrid point
        · exact absurd hb h1
        · rfl
      have hptempty : b.grid point = none := by
        cases hg : b.grid point
        · rfl
        · rw [hg] at h2
          exact absurd rfl h2
      rcases hfold : List.foldlM (psBody player point)
          (⟨b, [], [], []⟩ : PSState) point.neighbors with ⟨e, b2⟩ | stF
      · rw [hfold] at h
        injection (show ((some e : Option Err), b2) = (none, bR) from h)
          with h1' h2'
        cases h1'
      · rw [hfold] at h
        injection (show ((none : Option Err), stF.board) = (none, bR) from h)
          with h1' h2'
        rw [← h2']
        exact loop_ok_boardInv hinv hpton hptempty point.neighbors []
          ⟨b, [], [], []⟩ rfl
          (LoopInv.nobody [] (fun m hm => absurd hm (List.not_mem_nil m)))
          stF hfold

/-- Every reachable board satisfies the board invariant. -/
theorem reachableBoard_boardInv {b : Board} (hb : ReachableBoard b) :
    BoardInv b := by
  induction hb with
  | init r c => exact boardInv_init r c
  | step hbp hps ih => exact placeStone_ok_boardInv ih hps

/-- C2: on every board reachable from an empty board by successful
`place_stone` calls, each live group's `num_liberties` equals the number of
empty on-grid points orthogonally adjacent to at least one of its stones. -/
theorem liberty_count_invariant {b : Board} (hb : ReachableBoard b)
    {i : Nat} {p : Point} (hp : b.grid p = some i) :
    (b.heap i).numLiberties = (emptyNeighborPoints b i).card := by
  have hinv : BoardInv b := reachableBoard_boardInv hb
  have hset : (b.heap i).liberties = emptyNeighborPoints b i := by
    ext q
    rw [hinv.hlib p i hp q]
    unfold emptyNeighborPoints
    simp only [Finset.mem_filter, Finset.mem_biUnion, List.mem_toFinset]
    constructor
    · rintro ⟨h1, h2, s, hs, hsn⟩
      exact ⟨⟨s, hs, hsn⟩, h1, h2⟩
    · rintro ⟨⟨s, hs, hsn⟩, h1, h2⟩
      exact ⟨h1, h2, s, hs, hsn⟩
  unfold GoString.numLiberties
  rw [hset]

/-- Witness for C2 on the concrete reachable board with a single black stone
at (2,2) of a 2×2 board: its group has two liberties, matching its two empty
adjacent points. -/
theorem liberty_count_invariant_witness :
    c1bA.grid ⟨2, 2⟩ = some 1
      ∧ (c1bA.heap 1).numLiberties = (emptyNeighborPoints c1bA 1).card :=
  ⟨by decide, @liberty_count_invariant c1bA
    (ReachableBoard.step (ReachableBoard.init 2 2)
      (show (Board.init 2 2).placeStone .black ⟨2, 2⟩ = (none, c1bA) from rfl))
    1 ⟨2, 2⟩ (by decide)⟩

end DlGo
